import Mathlib

/-!
Verification of the wildcard path-matching engine of the `pathmatch` utility.

This file gives a shallow embedding, in Lean, of the pattern-matching and
tree-walking code of the repository:

  * the segment matcher `wildComp` and its backtracking loop `wildEat`
    (src/PathMatcher/pathmatcher.cpp, `wildComp`);
  * the full-path matcher `pathMatch` with its multi-segment wildcard
    handling (src/PathMatcher/pathmatcher.cpp, `pathMatch`);
  * the vector pattern normalizer `getNormalizedPattern` (PathMatch.cpp
    revision) and the groomed-pattern normalizer `getGroomedPattern`
    (pathmatcher.h revision);
  * the directory-tree walker `matchDir` / `handleEllipsisSubpath` /
    `fetchAll` and the driver `PathMatcher::match`.

Conventions of the embedding:

  * `wchar_t` strings are embedded as `List Char`; a C string pointer is the
    list of characters from that position up to (not including) the NUL
    terminator.  Dereferencing the terminator (or a `wstring` iterator at
    `end()`, which in practice reads the internal terminator) yields `'\x00'`,
    embedded as `List.headD s '\x00'`.
  * the directory tree is a finite inductive value (`FSEntry`); the
    directory-enumeration collaborator yields each directory's entry list in
    order.
  * the reporting callback is embedded by its decision sequence
    `cb : Nat → Bool`: `cb k` is the value the caller's callback returns on
    its `k`-th invocation (counting from 0).
  * fallible buffer operations (`appendPath`, `wcsncpy_s`) return `Option`;
    reading `back()` of an empty `wstring` (an out-of-bounds access) makes
    the embedding return `none` for the whole computation.
-/

namespace PathMatch

/-- `isSlash` (pathmatcher.cpp): true iff the character is a forward or
backward slash. -/
def isSlash (c : Char) : Bool :=
  (c = '/') || (c = '\\')

/-- `isDoubleAsterisk` (pathmatcher.cpp): the string begins with two
asterisks. -/
def isDoubleAsterisk : List Char → Bool
  | '*' :: '*' :: _ => true
  | _ => false

/-- `isEllipsis` (pathmatcher.cpp): the string begins with "...". -/
def isEllipsis : List Char → Bool
  | '.' :: '.' :: '.' :: _ => true
  | _ => false

/-- `isMultiWildStr` (pathmatcher.cpp): the string begins with a wildcard
that matches multiple characters ("*" or "..." or "**"). -/
def isMultiWildStr (s : List Char) : Bool :=
  (s.headD '\x00' = '*') || isEllipsis s

/-- `isDotsDir` (pathmatcher.cpp): the string is either "." or "..". -/
def isDotsDir (s : List Char) : Bool :=
  s = ['.'] || s = ['.', '.']

/-- The C `tolower` used by `pathMatch`'s character comparison, for the
default locale: ASCII uppercase letters map to lowercase, everything else is
unchanged. -/
def tolower (c : Char) : Char :=
  if 'A' ≤ c ∧ c ≤ 'Z' then Char.ofNat (c.toNat + 32) else c

/-!
## Segment matcher

`wildComp` (src/PathMatcher/pathmatcher.cpp, lines 314-382).  The C++
function is one loop (the single-character scan) followed by an asterisk
phase whose "eat away at the string" loop is the mutual helper `wildEat`
below.  Note that the character comparison on literal positions is the
direct `*patternIt != *strIt` comparison of the source: no case folding is
applied (the call sites carry `TODO: lowercase` comments, and the
declaration comment calls the function case sensitive).
-/

mutual

/-- `wildComp` (pathmatcher.cpp): segment matcher for `?`/`*` patterns
against one string, embedded from the iterator version.  The first two
match arms are the single-character scan loop; on `'*'` the run of
asterisks is collapsed (`pt.dropWhile`), an exhausted pattern matches any
remainder, and otherwise `wildEat` runs the backtracking loop. -/
def wildComp : List Char → List Char → Bool
  | c :: pt, d :: st =>
    if c = '*' then
      let pp := pt.dropWhile (fun x => x = '*')
      if pp.isEmpty then true else wildEat pp (d :: st)
    else if c = '?' ∨ c = d then
      wildComp pt st
    else false
  | c :: pt, [] =>
    if c = '*' then
      let pp := pt.dropWhile (fun x => x = '*')
      if pp.isEmpty then true else wildEat pp []
    else false
  | [], s => s.isEmpty
termination_by p s => (p.length, s.length, 0)
decreasing_by
  · exact Prod.Lex.left _ _ (Nat.lt_succ_of_le (List.dropWhile_suffix _).length_le)
  · exact Prod.Lex.left _ _ (Nat.lt_succ_self _)
  · exact Prod.Lex.left _ _ (Nat.lt_succ_of_le (List.dropWhile_suffix _).length_le)

/-- The terminal loop of `wildComp` (pathmatcher.cpp, lines 373-381):
try the pattern remainder against every suffix of the remaining string,
left to right. -/
def wildEat : List Char → List Char → Bool
  | p, s =>
    if wildComp p s then true
    else
      match s with
      | [] => false
      | _ :: st => wildEat p st
termination_by p s => (p.length, s.length, 1)
decreasing_by
  · exact Prod.Lex.right _ (Prod.Lex.right _ (Nat.zero_lt_one))
  · exact Prod.Lex.right _ (Prod.Lex.left _ _ (Nat.lt_succ_self _))

end

/-!
## Full-path matcher

`pathMatch` (src/PathMatcher/pathmatcher.cpp, lines 386-518).
-/

/-- The slash-collapsing sub-loop of `pathMatch`'s scan
(`while (isSlash(path[1])) ++path;`): advance to the last slash of a run.
Only invoked when the head is a slash. -/
def skipSlashRun : List Char → List Char
  | c :: d :: rest => if isSlash d then skipSlashRun (d :: rest) else c :: d :: rest
  | s => s

/-- The multi-wildcard advance loop of `pathMatch` (lines 462-475): strip
the maximal run of `...` / `**` / `*` tokens (in the source's test order:
ellipsis, then double asterisk, then single asterisk), returning the
pattern remainder and the `fEllipsis` flag, which is set when the run
contained an ellipsis or a double asterisk. -/
def multiWildRun : List Char → List Char × Bool
  | '.' :: '.' :: '.' :: rest => ((multiWildRun rest).1, true)
  | '*' :: '*' :: rest => ((multiWildRun rest).1, true)
  | '*' :: rest => multiWildRun rest
  | p => (p, false)

/-- Length bound for `multiWildRun`, used for the termination measure of
`pathMatch`. -/
def multiWildRun_length_le (p : List Char) : (multiWildRun p).1.length ≤ p.length := by
  induction p using multiWildRun.induct <;> simp_all [multiWildRun] <;> omega

/-- Strict length bound for `multiWildRun` on a string that begins with a
multi-character wildcard (the advance loop consumes at least one
character). -/
def multiWildRun_length_lt (p : List Char) (h : isMultiWildStr p = true) :
    (multiWildRun p).1.length < p.length := by
  induction p using multiWildRun.induct with
  | case1 rest ih =>
      have hle := multiWildRun_length_le rest
      simp only [multiWildRun, List.length_cons]
      omega
  | case2 rest ih =>
      have hle := multiWildRun_length_le rest
      simp only [multiWildRun, List.length_cons]
      omega
  | case3 rest ih =>
      have hle := multiWildRun_length_le rest
      simp only [multiWildRun, List.length_cons]
      omega
  | case4 p h1 h2 h3 =>
      exfalso
      simp only [isMultiWildStr, Bool.or_eq_true] at h
      rcases h with h | h
      · cases p with
        | nil => exact absurd h (by decide)
        | cons c t =>
            simp only [List.headD_cons] at h
            exact h3 t (by rw [of_decide_eq_true h])
      · unfold isEllipsis at h
        split at h
        · exact h1 _ rfl
        · exact absurd h (by decide)

/-- Length bound for `skipSlashRun`, used for the termination measure of
`pathMatch`. -/
def skipSlashRun_length_le (s : List Char) : (skipSlashRun s).length ≤ s.length := by
  induction s using skipSlashRun.induct <;> simp_all [skipSlashRun] <;> omega

/-- Dropping the leading slashes of a string that begins with a slash
consumes at least one character. -/
def dropWhileSlash_length_lt (q : List Char) (h : isSlash (q.headD '\x00') = true) :
    (q.dropWhile isSlash).length < q.length := by
  match q with
  | [] => simp [isSlash] at h
  | c :: rest =>
    simp only [List.headD_cons] at h
    simp only [List.dropWhile_cons, h, if_true]
    exact Nat.lt_succ_of_le (List.dropWhile_suffix _).length_le

mutual

/-- `pathMatch` (pathmatcher.cpp, lines 386-518): full-path matcher.
The third arm is one iteration of the scan loop (lines 419-449): collapse
repeated slashes on the path, then either match a pattern slash against a
path slash (collapsing the pattern's run), break to the multi-wildcard
phase (`pathMatchMulti`, fed the output of the advance loop
`multiWildRun`), or perform the single-character test.  The first two arms
are the loop exit (lines 451-455): with the pattern or the path exhausted,
a non-multi-wildcard pattern matches exactly when both are exhausted. -/
def pathMatch : List Char → List Char → Bool
  | [], s => s.isEmpty
  | pc :: pt, [] =>
    if h : isMultiWildStr (pc :: pt) then
      pathMatchMulti (multiWildRun (pc :: pt)).1 (multiWildRun (pc :: pt)).2 []
    else false
  | pc :: pt, sc :: st =>
    -- consume repeated slashes on the path (lines 421-424)
    let s1 := if isSlash sc then skipSlashRun (sc :: st) else sc :: st
    if isSlash pc then
      -- a pattern slash must face a path slash (lines 426-431)
      if ¬ isSlash (s1.headD '\x00') then false
      else
        let p1 := skipSlashRun (pc :: pt)
        -- single-character test (lines 440-448); a slash is never '?'
        if tolower (p1.headD '\x00') ≠ tolower (s1.headD '\x00') then false
        else pathMatch p1.tail s1.tail
    else if h : isMultiWildStr (pc :: pt) then
      pathMatchMulti (multiWildRun (pc :: pt)).1 (multiWildRun (pc :: pt)).2 s1
    else
      -- single-character test (lines 440-448)
      if pc ≠ '?' then
        if tolower pc ≠ tolower (s1.headD '\x00') then false
        else pathMatch pt s1.tail
      else if isSlash (s1.headD '\x00') then false
      else pathMatch pt s1.tail
termination_by p s => (p.length, s.length, 0)
decreasing_by
  · exact Prod.Lex.left _ _ (multiWildRun_length_lt _ h)
  · refine Prod.Lex.left _ _ ?_
    have := skipSlashRun_length_le (pc :: pt)
    have : (skipSlashRun (pc :: pt)).tail.length ≤ (skipSlashRun (pc :: pt)).length - 1 := by
      cases skipSlashRun (pc :: pt) <;> simp
    simp only [List.length_cons] at *
    omega
  · exact Prod.Lex.left _ _ (multiWildRun_length_lt _ h)
  · exact Prod.Lex.left _ _ (Nat.lt_succ_self _)
  · exact Prod.Lex.left _ _ (Nat.lt_succ_self _)

/-- The multi-wildcard phase of `pathMatch` (lines 477-518), entered with
the output `(q, fEllipsis)` of the advance loop.  A trailing ellipsis
matches any remainder (lines 480-481); a following slash run offers the
zero-width match of the remainder first (lines 483-497); otherwise the
ellipsis or asterisk backtracking loop runs (lines 499-518). -/
def pathMatchMulti : List Char → Bool → List Char → Bool
  | q, fEll, s =>
    if fEll ∧ q.isEmpty then true
    else if h : isSlash (q.headD '\x00') then
      let ptr := q.dropWhile isSlash
      if pathMatch ptr s then true
      else if fEll then nibbleEllipsis q s else nibbleAst q s
    else if fEll then nibbleEllipsis q s else nibbleAst q s
termination_by q _ s => (q.length, s.length, 2)
decreasing_by
  · exact Prod.Lex.left _ _ (dropWhileSlash_length_lt _ h)
  · exact Prod.Lex.right _ (Prod.Lex.right _ (by omega))
  · exact Prod.Lex.right _ (Prod.Lex.right _ (by omega))
  · exact Prod.Lex.right _ (Prod.Lex.right _ (by omega))
  · exact Prod.Lex.right _ (Prod.Lex.right _ (by omega))

/-- The ellipsis backtracking loop of `pathMatch` (lines 499-506):
nibble away at the path, one character at a time including slashes, until
the remainder pattern matches or the path is exhausted. -/
def nibbleEllipsis : List Char → List Char → Bool
  | q, s =>
    if pathMatch q s then true
    else
      match s with
      | [] => false
      | _ :: st => nibbleEllipsis q st
termination_by q s => (q.length, s.length, 1)
decreasing_by
  · exact Prod.Lex.right _ (Prod.Lex.right _ Nat.zero_lt_one)
  · exact Prod.Lex.right _ (Prod.Lex.left _ _ (Nat.lt_succ_self _))

/-- The asterisk backtracking loop of `pathMatch` (lines 507-518): nibble
away at the path until a slash or the end of the path, then match the
remainders. -/
def nibbleAst : List Char → List Char → Bool
  | q, [] => pathMatch q []
  | q, b :: st =>
    if isSlash b then pathMatch q (b :: st)
    else if pathMatch q (b :: st) then true
    else nibbleAst q st
termination_by q s => (q.length, s.length, 1)
decreasing_by
  · exact Prod.Lex.right _ (Prod.Lex.right _ Nat.zero_lt_one)
  · exact Prod.Lex.right _ (Prod.Lex.right _ Nat.zero_lt_one)
  · exact Prod.Lex.right _ (Prod.Lex.right _ Nat.zero_lt_one)
  · exact Prod.Lex.right _ (Prod.Lex.left _ _ (Nat.lt_succ_self _))

end

/-!
## Vector pattern normalizer

`getNormalizedPattern` (PathMatch.cpp revision, src/unnamed/part_004,
lines 1119-1238), together with its internal token constants.  Console
output statements (`wcout`) are omitted from the embedding.
-/

/-- `c_updir` (PathMatch.cpp): the caret character (U+005E) used
internally to encode a parent ("..") path segment. -/
def c_updir : Char := '^'

/-- `c_ellipsis` (PathMatch.cpp): the horizontal-ellipsis character
(U+2026) used internally to encode a multi-segment wildcard. -/
def c_ellipsis : Char := '…'

/-- The standardization loop of `getNormalizedPattern` (lines 1163-1180):
backslashes become forward slashes, `**` becomes the ellipsis character,
`..` followed by a third dot becomes the ellipsis character, a plain `..`
becomes the caret, and everything else is copied. -/
def standardizePattern : List Char → List Char
  | [] => []
  | '\\' :: rest => '/' :: standardizePattern rest
  | '*' :: '*' :: rest => c_ellipsis :: standardizePattern rest
  | '.' :: '.' :: '.' :: rest => c_ellipsis :: standardizePattern rest
  | '.' :: '.' :: rest => c_updir :: standardizePattern rest
  | c :: rest => c :: standardizePattern rest

/-- The collapse loop of `getNormalizedPattern` (lines 1184-1191): a
character equal to the previous one is dropped when it is a slash or the
ellipsis character. -/
def collapseRepeats : List Char → Char → List Char
  | [], _ => []
  | c :: rest, lastChar =>
    if c ≠ lastChar ∨ (c ≠ '/' ∧ c ≠ c_ellipsis) then c :: collapseRepeats rest c
    else collapseRepeats rest lastChar

/-- Skipping a (possibly empty) non-slash run and then a slash run
consumes at least one character of a nonempty string; termination bound
for `splitLoop`. -/
def splitRest_length_lt (c : Char) (t : List Char) :
    (((c :: t).dropWhile (fun x => ¬ x = '/')).dropWhile (fun x => x = '/')).length
      < (c :: t).length := by
  by_cases hc : c = '/'
  · subst hc
    have e1 : (('/' :: t).dropWhile (fun x => ¬ x = '/')) = '/' :: t := by
      simp [List.dropWhile_cons]
    have e2 : (('/' :: t).dropWhile (fun x => x = '/')) = t.dropWhile (fun x => x = '/') := by
      simp [List.dropWhile_cons]
    rw [e1, e2]
    exact Nat.lt_succ_of_le (List.dropWhile_suffix _).length_le
  · have e1 : ((c :: t).dropWhile (fun x => ¬ x = '/')) = t.dropWhile (fun x => ¬ x = '/') := by
      simp [List.dropWhile_cons, hc]
    rw [e1]
    exact Nat.lt_succ_of_le (le_trans (List.dropWhile_suffix _).length_le
      (List.dropWhile_suffix _).length_le)

/-- The segment-splitting loop of `getNormalizedPattern`
(lines 1210-1220): take a sub-path up to the next slash, then skip the
run of slashes. -/
def splitLoop : List (Char) → List (List Char)
  | [] => []
  | c :: t =>
    let seg := (c :: t).takeWhile (fun x => ¬ x = '/')
    let rest := ((c :: t).dropWhile (fun x => ¬ x = '/')).dropWhile (fun x => x = '/')
    seg :: splitLoop rest
termination_by s => s.length
decreasing_by
  exact splitRest_length_lt _ _

/-- Segment splitting of `getNormalizedPattern` (lines 1197-1220): a
leading slash run is preserved as a single `"/"` segment, then the
sub-paths are split on slash runs. -/
def splitSegments (s : List Char) : List (List Char) :=
  if s.headD '\x00' = '/' then
    ['/'] :: splitLoop (s.dropWhile (fun x => x = '/'))
  else splitLoop s

/-- One sweep of the updir-collapse loop of `getNormalizedPattern`
(lines 1226-1235): find the first segment that is neither the caret nor
the root slash and whose successor is the caret, and erase the pair;
`none` when no such pair exists. -/
def collapseUpdirsOnce : List (List Char) → Option (List (List Char))
  | a :: b :: rest =>
    if a = [c_updir] ∨ a = ['/'] ∨ ¬ b = [c_updir] then
      match collapseUpdirsOnce (b :: rest) with
      | some l => some (a :: l)
      | none => none
    else some rest
  | _ => none

/-- Each successful sweep of `collapseUpdirsOnce` removes exactly two
segments. -/
def collapseUpdirsOnce_length :
    (l l2 : List (List Char)) → collapseUpdirsOnce l = some l2 → l2.length + 2 = l.length
  | a :: b :: rest, l2, h => by
      simp only [collapseUpdirsOnce] at h
      split at h
      · cases hin : collapseUpdirsOnce (b :: rest) with
        | some l3 =>
            rw [hin] at h
            cases h
            have := collapseUpdirsOnce_length (b :: rest) l3 hin
            simp only [List.length_cons] at this ⊢
            omega
        | none => rw [hin] at h; cases h
      · cases h
        simp only [List.length_cons]
  | [], _, h => by cases h
  | [a], _, h => by simp [collapseUpdirsOnce] at h

/-- The updir-collapse loop of `getNormalizedPattern` (lines 1226-1235):
the C++ loop erases one qualifying pair and restarts the scan from the
beginning of the vector, until no pair is erasable. -/
def collapseUpdirs (l : List (List Char)) : List (List Char) :=
  match h : collapseUpdirsOnce l with
  | some l2 => collapseUpdirs l2
  | none => l
termination_by l.length
decreasing_by
  have := collapseUpdirsOnce_length l _ h
  omega

/-- `getNormalizedPattern` (PathMatch.cpp, lines 1125-1238): parse a raw
path pattern into the vector of normalized sub-path patterns.  The
`erase_if` of `"."` segments is `List.filter`. -/
def getNormalizedPattern (patternSource : List Char) : List (List Char) :=
  if patternSource.isEmpty then []
  else
    let standardizedPattern := standardizePattern patternSource
    let normalizedPattern := collapseRepeats standardizedPattern '\x00'
    let patterns := splitSegments normalizedPattern
    let patterns := patterns.filter (fun s => ¬ s = ['.'])
    collapseUpdirs patterns

/-!
## Groomed pattern normalizer

`getGroomedPattern` (pathmatcher.h revision, lines 387-464), with its
helper `wstringReplace` (PathMatch.cpp, lines 1097-1116).
-/

/-- `wstringReplace` (PathMatch.cpp): replace every (leftmost,
non-overlapping) occurrence of `fromStr` in `source` by `toStr`.  An empty
`fromStr` never occurs at the call sites; the embedding returns the source
unchanged in that case. -/
def wstringReplace (source fromStr toStr : List Char) : List Char :=
  if h0 : fromStr.isEmpty then source
  else if h : fromStr.isPrefixOf source then
    toStr ++ wstringReplace (source.drop fromStr.length) fromStr toStr
  else
    match source with
    | [] => []
    | c :: rest => c :: wstringReplace rest fromStr toStr
termination_by source.length
decreasing_by
  · have hpre : fromStr <+: source := by
      exact (List.isPrefixOf_iff_prefix).1 h
    have h1 : fromStr.length ≤ source.length := hpre.length_le
    have h2 : 0 < fromStr.length := by
      cases fromStr with
      | nil => simp at h0
      | cons a b => simp
    simp only [List.length_drop]
    omega
  · simp only [List.length_cons]
    omega

/-- The trailing-separator strip of `getGroomedPattern` (lines 413-417),
acting on the reversed pattern (`pop_back` removes the head of the
reversal).  `pattern.back()` on an empty string is an out-of-bounds read
in the C++ (`while (isSlash(pattern.back())) ... pop_back()`), embedded
as `none`; it is reached exactly when the pattern is empty or consists
only of separators. -/
def stripTrailingSlashes : List Char → Bool → Option (List Char × Bool)
  | [], _ => none
  | c :: rest, dirsOnly =>
    if isSlash c then stripTrailingSlashes rest true
    else some (c :: rest, dirsOnly)

/-- The `getline` segment extraction of `getGroomedPattern` (line 437):
`getline(stream, subdir, '/')` yields the (possibly empty) text before
each slash and the text after the last slash, but produces nothing for an
empty remainder (so no trailing empty segment for a string that ends in a
slash, and no segment at all for an empty string). -/
def getlineSplit : List Char → List (List Char)
  | [] => []
  | c :: t =>
    match h : (c :: t).dropWhile (fun x => ¬ x = '/') with
    | [] => [(c :: t).takeWhile (fun x => ¬ x = '/')]
    | _ :: rest2 => (c :: t).takeWhile (fun x => ¬ x = '/') :: getlineSplit rest2
termination_by s => s.length
decreasing_by
  rename_i c d
  have h1 : ((c :: st).dropWhile (fun x => ¬ x = '/')).length ≤ (c :: st).length :=
    (List.dropWhile_suffix _).length_le
  rw [h] at h1
  simp only [List.length_cons] at h1 ⊢
  omega

/-- The segment filtering loop of `getGroomedPattern` (lines 437-461):
skip empty segments (except a leading one), skip `"."` segments, and
collapse runs of pure-ellipsis segments to a single one via the
`priorEllipsis` flag (which skipped segments do not reset). -/
def groomSegments : List (List Char) → Bool → Bool → List (List Char)
  | [], _, _ => []
  | subdir :: rest, isHead, priorEllipsis =>
    if ¬ isHead ∧ subdir.isEmpty then groomSegments rest false priorEllipsis
    else if subdir = ['.'] then groomSegments rest false priorEllipsis
    else if ¬ subdir = [c_ellipsis] then subdir :: groomSegments rest false false
    else if ¬ priorEllipsis then subdir :: groomSegments rest false true
    else groomSegments rest false priorEllipsis

/-- `getGroomedPattern` (pathmatcher.h, lines 387-464): parse the pattern
into a vector of segment patterns and the directories-only flag.  `none`
embeds the out-of-bounds `pattern.back()` read on an empty or
separator-only pattern. -/
def getGroomedPattern (patternSource : List Char) : Option (List (List Char) × Bool) :=
  match stripTrailingSlashes patternSource.reverse false with
  | none => none
  | some (revStripped, dirsOnly) =>
    let pattern := revStripped.reverse
    let pattern := pattern.map (fun c => if c = '\\' then '/' else c)
    let pattern := wstringReplace pattern ['*', '*'] [c_ellipsis]
    let pattern := wstringReplace pattern ['.', '.', '.'] [c_ellipsis]
    some (groomSegments (getlineSplit pattern) true false, dirsOnly)

/-!
## Directory-tree walker

`PathMatcher` (src/PathMatcher/pathmatcher.cpp): `pathSpaceLeft`,
`appendPath`, `matchDir`, `handleEllipsisSubpath`, `fetchAll`
(lines 527-897), and the `match` driver of the pathmatcher.h revision
(lines 756-796).

The directory tree visible to the walker is a finite inductive value.
The directory-enumeration collaborator (`fs::directory_iterator` in this
revision) is embedded as `listDirAt`: the entry list of the directory at
the queried path, in order; a failed enumeration (nonexistent or
inaccessible directory) yields no entries, per the engine's treatment of
enumeration failures as "this branch has no entries".  In `fetchAll` the
C++ re-lists `m_path`, which at each recursion level is exactly the
directory of the entry just appended, so the embedding passes that
entry's children directly.
-/

/-- A directory entry of the model tree: a file or a directory with its
ordered entry list. -/
inductive FSEntry where
  | file (name : List Char) : FSEntry
  | dir (name : List Char) (entries : List FSEntry) : FSEntry

/-- The name of an entry (`dirEntry.path().filename()`). -/
def FSEntry.name : FSEntry → List Char
  | file n => n
  | dir n _ => n

/-- `fs::is_directory(dirEntry.status())`. -/
def FSEntry.isDirectory : FSEntry → Bool
  | file _ => false
  | dir _ _ => true

/-- The entry list of a directory entry (what enumerating it yields). -/
def FSEntry.children : FSEntry → List FSEntry
  | file _ => []
  | dir _ es => es

/-- Any list has positive `sizeOf`; auxiliary fact for termination. -/
def listChar_sizeOf_pos (l : List Char) : 0 < sizeOf l := by
  cases l <;> simp

/-- Size bound used for the termination of `fetchAll`: a directory's
entry list is smaller than the entry itself. -/
def FSEntry.children_sizeOf_lt (e : FSEntry) : sizeOf e.children < sizeOf e := by
  cases e with
  | file n =>
      have hn := listChar_sizeOf_pos n
      simp [FSEntry.children]
      try omega
  | dir n es =>
      simp [FSEntry.children]
      try omega

/-- `mc_MaxPathLength` (pathmatcher.h): the temporary Windows maximum
path length. -/
def mc_MaxPathLength : Nat := 260

/-- `c_slash` (pathmatcher.cpp, line 98): the separator character the
walker appends between path components. -/
def c_slash : Char := '\\'

/-- `PathMatcher::pathSpaceLeft` (lines 527-533): characters that can
still be appended to the path buffer, leaving room for the terminator.
The argument is the current length (`pathend - m_path`). -/
def pathSpaceLeft (pathendLen : Nat) : Nat :=
  (mc_MaxPathLength + 1) - pathendLen - 1

/-- `PathMatcher::appendPath` (lines 554-578): append a string at the
path end, or `none` (`nullptr`) if the buffer cannot hold it. -/
def appendPath (pathend str : List Char) : Option (List Char) :=
  if pathSpaceLeft pathend.length < str.length + 1 then none
  else some (pathend ++ str)

/-- Skipping a (possibly empty) non-slash run and then a slash run
consumes at least one character of a nonempty string; termination bound
for `pathComponents`. -/
def pathRest_length_lt (c : Char) (t : List Char) :
    (((c :: t).dropWhile (fun x => ¬ isSlash x)).dropWhile (fun x => isSlash x)).length
      < (c :: t).length := by
  by_cases hc : isSlash c = true
  · have e1 : ((c :: t).dropWhile (fun x => ¬ isSlash x)) = c :: t := by
      simp [List.dropWhile_cons, hc]
    have e2 : ((c :: t).dropWhile (fun x => isSlash x)) = t.dropWhile (fun x => isSlash x) := by
      simp [List.dropWhile_cons, hc]
    rw [e1, e2]
    exact Nat.lt_succ_of_le (List.dropWhile_suffix _).length_le
  · have e1 : ((c :: t).dropWhile (fun x => ¬ isSlash x))
        = t.dropWhile (fun x => ¬ isSlash x) := by
      simp [List.dropWhile_cons, hc]
    rw [e1]
    exact Nat.lt_succ_of_le (le_trans (List.dropWhile_suffix _).length_le
      (List.dropWhile_suffix _).length_le)

/-- Split a path into its nonempty components (either separator
character, repeated separators collapsed), for resolving an enumeration
query against the model tree. -/
def pathComponents : List Char → List (List Char)
  | [] => []
  | c :: t =>
    let seg := (c :: t).takeWhile (fun x => ¬ isSlash x)
    let rest := ((c :: t).dropWhile (fun x => ¬ isSlash x)).dropWhile (fun x => isSlash x)
    if seg.isEmpty then pathComponents rest else seg :: pathComponents rest
termination_by s => s.length
decreasing_by
  all_goals exact pathRest_length_lt _ _

/-- Resolve a component list against an entry list, descending through
directories; `none` when a component is missing or is a file. -/
def resolveDir (entries : List FSEntry) : List (List Char) → Option (List FSEntry)
  | [] => some entries
  | n :: ns =>
    match entries.find? (fun e => e.name = n) with
    | some (FSEntry.dir _ ch) => resolveDir ch ns
    | _ => none

/-- The directory-enumeration collaborator: the entries of the directory
at path `p` under the model root.  A nonexistent or inaccessible
directory enumerates as `none` (treated as an empty listing by the
callers). -/
def listDirAt (root : List FSEntry) (p : List Char) : Option (List FSEntry) :=
  resolveDir root (pathComponents p)

mutual

/-- `PathMatcher::fetchAll` (pathmatcher.cpp, lines 839-897): recursive
fetch of every tree entry below the current directory, reporting each
entry whose accumulated path satisfies the saved ellipsis pattern.

Arguments: the callback decision sequence `cb`, `m_dirsOnly`,
`m_ellipsisPattern` (`none` embeds the null pattern), the index of
`m_ellipsisPath` into the path buffer, the current path content
(`m_path` up to `pathend`), the entry list of the current directory, the
first-level prefix filter `ellipsisPre` (`ellipsis_prefix`, null on
recursive calls), and the number `k` of callback invocations already
made.  The result is the list of reported paths, in order. -/
def fetchAll (cb : Nat → Bool) (dirsOnly : Bool) (ellipPat : Option (List Char)) (anchor : Nat)
    (pathend : List Char) (entries : List FSEntry) (ellipsisPre : Option (List Char)) (k : Nat) :
    List (List Char) :=
  -- append slash if needed (lines 856-859)
  let slashAppended :=
    if pathend ≠ [] ∧ ¬ isSlash (pathend.getLastD '\x00') then appendPath pathend [c_slash]
    else some pathend
  match slashAppended with
  | none => []                                     -- bail out: the append failed
  | some path1 =>
    if pathSpaceLeft path1.length < 1 then []      -- bail out: no path length left
    else fetchLoop cb dirsOnly ellipPat anchor path1 entries ellipsisPre k
termination_by (sizeOf entries, 1)
decreasing_by
  exact Prod.Lex.right _ Nat.zero_lt_one

/-- The enumeration loop of `fetchAll` (lines 867-896): filter by
directories-only and by the ellipsis prefix, append the entry name (a
failed append breaks the loop), report when the ellipsis pattern matches
the path from the multi-segment anchor (a `false` callback return
returns from this level), and recurse into subdirectories. -/
def fetchLoop (cb : Nat → Bool) (dirsOnly : Bool) (ellipPat : Option (List Char)) (anchor : Nat)
    (path1 : List Char) (entries : List FSEntry) (ellipsisPre : Option (List Char)) (k : Nat) :
    List (List Char) :=
  match entries with
  | [] => []
  | e :: rest =>
    -- skip file entries if we're only looking for directories (lines 873-875)
    if dirsOnly ∧ ¬ e.isDirectory then
      fetchLoop cb dirsOnly ellipPat anchor path1 rest ellipsisPre k
    -- ellipsis-prefix filter (lines 882-883)
    else if (match ellipsisPre with
             | some pf => !(wildComp pf e.name)
             | none => false) then
      fetchLoop cb dirsOnly ellipPat anchor path1 rest ellipsisPre k
    else
      match appendPath path1 e.name with
      | none => []                                 -- `if (!pathEndNew) break;`
      | some pathEndNew =>
        -- report when there is no ellipsis pattern or it matches the
        -- path at the saved anchor (lines 889-892); `fsPath / entryName`
        -- equals the appended path because `path1` is empty or ends in a
        -- separator
        let doReport :=
          match ellipPat with
          | none => true
          | some ep => pathMatch ep (pathEndNew.drop anchor)
        if doReport then
          if ¬ cb k then [pathEndNew]              -- callback false: return
          else
            pathEndNew ::
              (if e.isDirectory then
                let sub := fetchAll cb dirsOnly ellipPat anchor pathEndNew e.children none (k + 1)
                sub ++ fetchLoop cb dirsOnly ellipPat anchor path1 rest ellipsisPre (k + 1 + sub.length)
              else
                fetchLoop cb dirsOnly ellipPat anchor path1 rest ellipsisPre (k + 1))
        else
          if e.isDirectory then
            let sub := fetchAll cb dirsOnly ellipPat anchor pathEndNew e.children none k
            sub ++ fetchLoop cb dirsOnly ellipPat anchor path1 rest ellipsisPre (k + sub.length)
          else
            fetchLoop cb dirsOnly ellipPat anchor path1 rest ellipsisPre k
termination_by (sizeOf entries, 0)
decreasing_by
  all_goals apply Prod.Lex.left
  all_goals have h1 := FSEntry.children_sizeOf_lt e
  all_goals simp
  all_goals try omega

end

/-- `PathMatcher::handleEllipsisSubpath` (pathmatcher.cpp,
lines 793-835): dispatch a pattern sub-directory containing an ellipsis
(or double asterisk) to `fetchAll`.  A bare trailing ellipsis clears
`m_ellipsisPattern` (every fetched entry is reported); otherwise the
whole remaining pattern is saved together with the anchor
(`m_ellipsisPath = pathend`), and a nonempty prefix becomes the
first-level filter `prefix + "*"`.  The entry list of the current
directory (`m_path`) is obtained from the enumeration collaborator. -/
def handleEllipsisSubpath (cb : Nat → Bool) (dirsOnly : Bool) (root : List FSEntry)
    (pathend : List Char) (pattern : List Char) (ipatt : Nat) (k : Nat) : List (List Char) :=
  let ellipsisEnd := if isEllipsis (pattern.drop ipatt) then ipatt + 3 else ipatt + 2
  let bareFetch := ipatt = 0 ∧ (pattern.drop ellipsisEnd).isEmpty
  let ellipPat : Option (List Char) := if bareFetch then none else some pattern
  let ellipsisPre : Option (List Char) :=
    if bareFetch then none
    else if ipatt > 0 then some (pattern.take ipatt ++ ['*']) else none
  let entries := (listDirAt root pathend).getD []
  fetchAll cb dirsOnly ellipPat pathend.length pathend entries ellipsisPre k

/-- The pattern characterization loop of `matchDir` (lines 692-702):
the index of the first of pattern end, slash, ellipsis or double
asterisk, and the `fliteral` flag (no `?`/`*` before that point). -/
def patternScan : List Char → Nat × Bool
  | [] => (0, true)
  | c :: rest =>
    if isSlash c ∨ isEllipsis (c :: rest) ∨ isDoubleAsterisk (c :: rest) then (0, true)
    else
      let r := patternScan rest
      (r.1 + 1, r.2 ∧ ¬ c = '?' ∧ ¬ c = '*')

mutual

/-- `PathMatcher::matchDir` (pathmatcher.cpp, lines 672-789): match one
pattern sub-directory against the current directory.  An ellipsis
sub-directory is dispatched to `handleEllipsisSubpath`.  Otherwise, a
literal sub-pattern is copied into the path buffer (falling back to
`"*"` when the copy does not fit, exactly as the source does on a failed
`wcsncpy_s`), a wildcard sub-pattern puts `"*"` there, and the
enumeration of the resulting `m_path` is filtered and reported or
descended into by `matchDirLoop`, which receives the pattern remainder
`pattern + ipatt + 1` for the descent. -/
def matchDir (cb : Nat → Bool) (dirsOnly : Bool) (root : List FSEntry)
    (pathend : List Char) (pattern : List Char) (k : Nat) : List (List Char) :=
  if h : pattern.isEmpty then []
  else
    let scan := patternScan pattern
    let ipatt := scan.1
    let fliteral := scan.2
    if isEllipsis (pattern.drop ipatt) ∨ isDoubleAsterisk (pattern.drop ipatt) then
      handleEllipsisSubpath cb dirsOnly root pathend pattern ipatt k
    else
      let fdirmatch := isSlash ((pattern.drop ipatt).headD '\x00')
      let fdescend := fdirmatch ∧ ¬ (pattern.drop (ipatt + 1)).isEmpty
      let subPattern := pattern.take ipatt
      -- literal copy into the buffer (lines 733-744): `wcsncpy_s` fails
      -- when the literal does not fit, and then the wildcard fallback
      -- writes "*"
      let litOk := fliteral ∧ ¬ (pathSpaceLeft pathend.length < ipatt + 1)
      let queryPath := if litOk then pathend ++ subPattern else pathend ++ ['*']
      let entries := (listDirAt root queryPath).getD []
      matchDirLoop cb dirsOnly root pathend (pattern.drop (ipatt + 1)) fliteral fdirmatch
        fdescend subPattern queryPath entries k
termination_by (pattern.length + 1, 0)
decreasing_by
  refine Prod.Lex.left _ _ ?_
  have hp : 0 < pattern.length := by
    cases pattern with
    | nil => simp at h
    | cons a b => simp
  simp only [List.length_drop]
  omega

/-- The enumeration loop of `matchDir` (lines 748-785): skip the dots
pseudo-entries, filter wildcard candidates with `wildComp`, apply the
directories-only rule, descend into sub-directories with the remainder
pattern `patRest` (an overflowing append skips that entry and
continues), or report the entry (`fsPath / entryName`, where `fsPath` is
the enumerated path); a `false` callback return breaks the loop. -/
def matchDirLoop (cb : Nat → Bool) (dirsOnly : Bool) (root : List FSEntry)
    (pathend : List Char) (patRest : List Char) (fliteral fdirmatch fdescend : Bool)
    (subPattern queryPath : List Char) (entries : List FSEntry) (k : Nat) : List (List Char) :=
  match entries with
  | [] => []
  | e :: rest =>
    -- ignore "." and ".." entries (line 753)
    if isDotsDir e.name then
      matchDirLoop cb dirsOnly root pathend patRest fliteral fdirmatch fdescend
        subPattern queryPath rest k
    -- wildcard filter (lines 757-760)
    else if ¬ fliteral ∧ ¬ wildComp subPattern e.name then
      matchDirLoop cb dirsOnly root pathend patRest fliteral fdirmatch fdescend
        subPattern queryPath rest k
    -- skip files when matching directories only (lines 765-767)
    else if (dirsOnly ∨ fdirmatch) ∧ ¬ e.isDirectory then
      matchDirLoop cb dirsOnly root pathend patRest fliteral fdirmatch fdescend
        subPattern queryPath rest k
    else if fdescend then
      -- descend into a presumed subdirectory (lines 768-776)
      match appendPath pathend e.name with
      | none =>
        -- `if (!pathend_new) continue;`
        matchDirLoop cb dirsOnly root pathend patRest fliteral fdirmatch fdescend
          subPattern queryPath rest k
      | some p1 =>
        -- `*pathend_new++ = c_slash` (an unchecked single-character write)
        let sub := matchDir cb dirsOnly root (p1 ++ [c_slash]) patRest k
        sub ++ matchDirLoop cb dirsOnly root pathend patRest fliteral fdirmatch fdescend
          subPattern queryPath rest (k + sub.length)
    else
      -- report the entry (lines 777-784)
      match appendPath pathend e.name with
      | none =>
        -- failed append: no callback, next entry
        matchDirLoop cb dirsOnly root pathend patRest fliteral fdirmatch fdescend
          subPattern queryPath rest k
      | some _ =>
        -- `fsPath / entryName`: `operator/` inserts the preferred
        -- separator when `fsPath` is nonempty and has none
        let rep :=
          if queryPath.isEmpty then e.name
          else if isSlash (queryPath.getLastD '\x00') then queryPath ++ e.name
          else queryPath ++ [c_slash] ++ e.name
        if ¬ cb k then [rep]                       -- callback false: break
        else rep :: matchDirLoop cb dirsOnly root pathend patRest fliteral fdirmatch
          fdescend subPattern queryPath rest (k + 1)
termination_by (patRest.length + 1, sizeOf entries)
decreasing_by
  all_goals exact Prod.Lex.right _ (by simp; try omega)

end

/-- `PathMatcher::matchDir(vector<wstring>&)` (pathmatcher.h revision,
lines 800-918): an unfinished stub.  It ignores its argument and aims
both its working pattern and its path-end pointer at the string literal
`"dummy"` (`wchar_t* pattern = L"dummy"; wchar_t* pathend = pattern;`).
An empty pattern would return cleanly with no reports (`if (!pattern ||
!*pattern) return;`), but `"dummy"` is not empty: the characterization
loop runs to the terminator (`ipatt = 5`, `fliteral = true`), and with
no ellipsis at the stop point the function executes
`wcsncpy_s(pathend, pathSpaceLeft(pathend), pattern, ipatt)` — a write
through `pathend` into the read-only string literal, with source and
destination overlapping and a length obtained as a pointer difference
between unrelated objects.  (A wildcard pattern would instead write
`pathend[0] = L'*'` into the same literal, and an ellipsis pattern would
hand the literal-aimed `pathend` to `handleEllipsisSubpath`; every
continuation past the emptiness test writes through that pointer.)
This is undefined behaviour, and even an execution that survived the
write would construct `fs::directory_iterator` on the empty `m_path`,
which throws an uncaught `filesystem_error`.  The embedding therefore
yields `none` for every continuation past the emptiness test; the
commented-out recursive descent and the debug printing are omitted. -/
def matchDirVec (patternVec : List (List Char)) : Option (List (List Char)) :=
  let pattern := ['d', 'u', 'm', 'm', 'y']
  if pattern.isEmpty then some []
  else if isEllipsis (pattern.drop (patternScan pattern).1)
      ∨ isDoubleAsterisk (pattern.drop (patternScan pattern).1) then
    none
  else
    none

/-- `PathMatcher::match` (pathmatcher.h revision, lines 756-796): the
driver.  It fails (`false`) without a callback function; it grooms the
pattern with `getGroomedPattern` (whose out-of-bounds read on an empty
or separator-only pattern is the `none` outcome); it fails (`false`) on
an empty groomed pattern vector; otherwise it invokes the walk
(`matchDir(patternVec)`) and only an execution in which the walk
returned would reach the final `return true` — the walk's outcome does
not influence the returned value, but the vector-walker stub faults
(the `none` outcome of `matchDirVec`), so that line is reached in no
execution with a nonempty vector.  The `some` result pairs the returned
Boolean with the reported paths. -/
def PathMatcher_match (path_pattern : List Char) (callbackGiven : Bool) :
    Option (Bool × List (List Char)) :=
  if ¬ callbackGiven then some (false, [])
  else
    match getGroomedPattern path_pattern with
    | none => none
    | some (patternVec, _dirsOnly) =>
      if patternVec.isEmpty then some (false, [])
      else
        match matchDirVec patternVec with
        | none => none
        | some reports => some (true, reports)

/-!
## Specification-side definitions

Definitions transcribing side conditions of the specification's claims
(not program code): the separator normalization and case folding used to
compare paths, and the notion of a literal pattern (one with no wildcard
tokens).  Also the concrete directory trees and patterns used as
evaluation inputs by the theorems below.
-/

/-- Separator normalization in the spec's sense: identify the two
separator characters and collapse repeated separators. -/
def specSepNormalize : List Char → List Char
  | [] => []
  | c :: t =>
    if isSlash c then '/' :: specSepNormalize (t.dropWhile (fun x => isSlash x))
    else c :: specSepNormalize t
termination_by s => s.length
decreasing_by
  · exact Nat.lt_succ_of_le (List.dropWhile_suffix _).length_le
  · exact Nat.lt_succ_self _

/-- Separator normalization combined with ASCII case folding: the
equivalence under which `pathMatch` compares a literal pattern with a
path. -/
def specCanon (s : List Char) : List Char :=
  specSepNormalize (s.map tolower)

/-- A literal pattern: no `'*'`, no `'?'`, and no `"..."` (the
multi-segment token is spelled with ordinary dots, so a pattern with
three consecutive dots is not literal). -/
def literalPattern : List Char → Bool
  | [] => true
  | c :: rest => !(c = '*' : Bool) && !(c = '?' : Bool) && !(isEllipsis (c :: rest)) && literalPattern rest

/-- A 300-character entry name, longer than the path buffer. -/
def longName : List Char := List.replicate 300 'x'

/-- Tree for the cancellation scenario: a directory `A` holding files
`m1` and `m3`, and a sibling file `m2`. -/
def treeCancel : List FSEntry :=
  [FSEntry.dir ['A'] [FSEntry.file ['m', '1'], FSEntry.file ['m', '3']],
   FSEntry.file ['m', '2']]

/-- The groomed pattern `".../m*"` (separators in groomed patterns use
the walker's separator character). -/
def patCancel : List Char := ['.', '.', '.', '\\', 'm', '*']

/-- Tree for the overflow scenario: an overlong-named file followed by a
file `b`. -/
def treeOverflow : List FSEntry :=
  [FSEntry.file longName, FSEntry.file ['b']]

/-- Tree for the nested overflow scenario: directory `D` holding the
overlong-named file and a file `m`, and a sibling file `e`. -/
def treeOverflowNested : List FSEntry :=
  [FSEntry.dir ['D'] [FSEntry.file longName, FSEntry.file ['m']],
   FSEntry.file ['e']]

/-- The bare recursive-fetch pattern `"..."`. -/
def patDots : List Char := ['.', '.', '.']

/-- Tree for the descend-overflow scenario: `abc` holds an overlong-named
directory and a directory `d`; the walker's buffer reuse makes the
descent list the root's `d/f`, which holds a file `x`. -/
def treeDescend : List FSEntry :=
  [FSEntry.dir ['a', 'b', 'c']
     [FSEntry.dir longName [], FSEntry.dir ['d'] []],
   FSEntry.dir ['d'] [FSEntry.dir ['f'] [FSEntry.file ['x']]]]

/-- The pattern `"abc\f"`. -/
def patDescend : List Char := ['a', 'b', 'c', '\\', 'f']

/-!
## Theorems
-/

/-- C3: the claim states that in the segment matcher every pattern
character other than `?` and `*` matches itself case-insensitively
(pattern "abc" matches component "ABC").  The code compares literal
characters directly (`*patternIt != *strIt`), so "abc" does not match
"ABC"; it matches only "abc".  This theorem evaluates the matcher at the
claim's failing input. -/
theorem C3_wildComp_at_failing_input :
    wildComp ['a', 'b', 'c'] ['A', 'B', 'C'] = false
    ∧ wildComp ['a', 'b', 'c'] ['a', 'b', 'c'] = true := by
  constructor <;> simp [wildComp]

/-- C5: the claim states that a segment list never contains two
consecutive multi-segment wildcards, and that
`normalize("a/.../**/.../b")` equals `normalize("a/.../b")`.  The
shipped normalizer collapses only character-adjacent multi-wildcards,
not slash-separated ones: the first pattern normalizes to five segments
with three consecutive ellipsis entries, contradicting the claim (and
the function's own documentation). -/
theorem C5_normalized_consecutive_multiwild :
    getNormalizedPattern ['a', '/', '.', '.', '.', '/', '*', '*', '/', '.', '.', '.', '/', 'b']
      = [['a'], [c_ellipsis], [c_ellipsis], [c_ellipsis], ['b']]
    ∧ getNormalizedPattern ['a', '/', '.', '.', '.', '/', 'b']
      = [['a'], [c_ellipsis], ['b']] := by
  constructor <;>
    simp [getNormalizedPattern, standardizePattern, collapseRepeats, splitSegments, splitLoop,
      collapseUpdirs, collapseUpdirsOnce, c_ellipsis, c_updir]

/-- C8 counterexample: the claim states that a pattern consisting only
of separators normalizes to an empty segment list; the normalizer
instead yields the single root segment `"/"`. -/
theorem C8_separator_only_not_empty :
    getNormalizedPattern ['/'] = [['/']] ∧ ¬ getNormalizedPattern ['/'] = [] := by
  constructor <;>
    simp [getNormalizedPattern, standardizePattern, collapseRepeats, splitSegments, splitLoop,
      collapseUpdirs, collapseUpdirsOnce]

/-- C8 as amended: an empty raw pattern (and a pattern normalizing to
nothing, such as ".") yields an empty segment list and `match` returns
`false` without reporting; but a separator-only pattern yields the
single segment `"/"`, and both the empty and the separator-only pattern
drive the groomed-pattern trailing-separator strip into its
out-of-bounds `back()` read (the `none` outcomes), so the match call is
not free of undefined behaviour there. -/
theorem C8_amended_empty_pattern :
    getNormalizedPattern [] = []
    ∧ getNormalizedPattern ['.'] = []
    ∧ getNormalizedPattern ['/'] = [['/']]
    ∧ PathMatcher_match ['.'] true = some (false, [])
    ∧ getGroomedPattern [] = none
    ∧ getGroomedPattern ['/'] = none
    ∧ PathMatcher_match [] true = none
    ∧ PathMatcher_match ['/'] true = none := by
  refine ⟨by simp [getNormalizedPattern], ?_, ?_, ?_, ?_, ?_, ?_, ?_⟩ <;>
    simp [getNormalizedPattern, standardizePattern, collapseRepeats, splitSegments, splitLoop,
      collapseUpdirs, collapseUpdirsOnce, PathMatcher_match, getGroomedPattern,
      stripTrailingSlashes, wstringReplace, getlineSplit, groomSegments, c_ellipsis, isSlash]

/-- C10: the normalizer encodes its internal tokens with ordinary
characters, so raw input containing them is misinterpreted: a literal
U+2026 horizontal-ellipsis segment normalizes identically to the
multi-segment wildcard spelling "...", and a literal caret segment acts
as a parent reference, cancelling the preceding segment. -/
theorem C10_internal_token_injection :
    getNormalizedPattern ['a', '/', '…', '/', 'b']
      = getNormalizedPattern ['a', '/', '.', '.', '.', '/', 'b']
    ∧ getNormalizedPattern ['a', '/', '…', '/', 'b'] = [['a'], [c_ellipsis], ['b']]
    ∧ getNormalizedPattern ['a', '/', '^', '/', 'b'] = [['b']]
    ∧ getNormalizedPattern ['a', '/', 'x', '/', '.', '.', '/', 'b'] = [['a'], ['b']] := by
  refine ⟨?_, ?_, ?_, ?_⟩ <;>
    simp [getNormalizedPattern, standardizePattern, collapseRepeats, splitSegments, splitLoop,
      collapseUpdirs, collapseUpdirsOnce, c_ellipsis, c_updir]

/-- C2 counterexample: the claim states that the two multi-segment
spellings are interchangeable for every prefix `A`, suffix `B` and path
`p`.  At `A = "."`, `B = ""`, `p = ".x"` they disagree: in `"." + "..."`
the prefix dot is absorbed into an ellipsis token leaving a literal dot
behind (`"...."` fails to match `".x"`), while `"." + "**"` keeps the
dot literal and matches. -/
theorem C2_spellings_disagree :
    pathMatch (['.'] ++ ['.', '.', '.'] ++ []) ['.', 'x'] = false
    ∧ pathMatch (['.'] ++ ['*', '*'] ++ []) ['.', 'x'] = true := by
  constructor <;>
    simp [pathMatch, pathMatchMulti, nibbleEllipsis, nibbleAst, multiWildRun, skipSlashRun,
      isMultiWildStr, isEllipsis, isDoubleAsterisk, isSlash, tolower]

/-- C1 counterexample: the claim states that once the callback returns
`false` the entire walk aborts, so with at least two matching entries
and a callback refusing from its first invocation exactly one report is
delivered.  On `treeCancel` with pattern `".../m*"` (entries `A/m1`,
`A/m3`, `m2` of which `A/m1`, `A/m3`, `m2` match) an always-`false`
callback still receives two reports: the `false` return only returns
from the `fetchAll` level scanning `A`, and the enclosing level
continues with the sibling `m2`. -/
theorem C1_cancellation_two_reports :
    (matchDir (fun _ => false) false treeCancel [] patCancel 0).length = 2 := by
  simp [matchDir, matchDirLoop, handleEllipsisSubpath, fetchAll, fetchLoop, patternScan,
    treeCancel, patCancel, listDirAt, resolveDir, pathComponents, appendPath, pathSpaceLeft,
    mc_MaxPathLength, c_slash, FSEntry.name, FSEntry.isDirectory, FSEntry.children,
    isDotsDir, isEllipsis, isDoubleAsterisk, isMultiWildStr, isSlash, wildComp, wildEat,
    pathMatch, pathMatchMulti, nibbleEllipsis, nibbleAst, multiWildRun, skipSlashRun, tolower]

/-- C1 as amended: a `false` callback return aborts only the directory
enumeration at the recursion level that delivered the report; enclosing
levels of an in-progress multi-segment fetch continue with their
remaining siblings.  On `treeCancel` with pattern `".../m*"`: with an
always-`false` callback the reports are exactly `A\m1` (after which the
level scanning `A` stops, so its sibling `A\m3` is never reported) and
then `m2` (the enclosing level continued); an always-`true` callback
reports all three matches. -/
theorem C1_cancellation_local_abort :
    matchDir (fun _ => false) false treeCancel [] patCancel 0
      = [['A', '\\', 'm', '1'], ['m', '2']]
    ∧ matchDir (fun _ => true) false treeCancel [] patCancel 0
      = [['A', '\\', 'm', '1'], ['A', '\\', 'm', '3'], ['m', '2']] := by
  constructor <;>
    simp [matchDir, matchDirLoop, handleEllipsisSubpath, fetchAll, fetchLoop, patternScan,
      treeCancel, patCancel, listDirAt, resolveDir, pathComponents, appendPath, pathSpaceLeft,
      mc_MaxPathLength, c_slash, FSEntry.name, FSEntry.isDirectory, FSEntry.children,
      isDotsDir, isEllipsis, isDoubleAsterisk, isMultiWildStr, isSlash, wildComp, wildEat,
      pathMatch, pathMatchMulti, nibbleEllipsis, nibbleAst, multiWildRun, skipSlashRun, tolower]

/-- The overlong name has 300 characters. -/
theorem longName_length : longName.length = 300 := by
  simp only [longName, List.length_replicate]

/-- The overlong name is not a dots pseudo-entry. -/
theorem isDotsDir_longName : isDotsDir longName = false := by
  have h : longName.length = 300 := longName_length
  simp only [isDotsDir, Bool.or_eq_false_iff, decide_eq_false_iff_not]
  constructor
  · intro he
    rw [he] at h
    simp at h
  · intro he
    rw [he] at h
    simp at h

/-- C4 counterexample: the claim states that an overflowing append
abandons only that branch and that the remaining sibling entries of the
same directory are traversed unaffected.  In the multi-segment fetch the
failed append executes `break`: on `treeOverflow` (an overlong-named
file followed by file `b`) the bare fetch `"..."` reports nothing at
all, although `b` alone would be reported. -/
theorem C4_overflow_breaks_siblings :
    matchDir (fun _ => true) false treeOverflow [] patDots 0 = []
    ∧ matchDir (fun _ => true) false [FSEntry.file ['b']] [] patDots 0 = [['b']] := by
  constructor <;>
    simp [matchDir, matchDirLoop, handleEllipsisSubpath, fetchAll, fetchLoop, patternScan,
      treeOverflow, patDots, longName_length, isDotsDir_longName, listDirAt, resolveDir, pathComponents, appendPath,
      pathSpaceLeft, mc_MaxPathLength, c_slash, FSEntry.name, FSEntry.isDirectory,
      FSEntry.children, isDotsDir, isEllipsis, isDoubleAsterisk, isMultiWildStr, isSlash,
      wildComp, wildEat, pathMatch, pathMatchMulti, nibbleEllipsis, nibbleAst, multiWildRun,
      skipSlashRun, tolower]

/-- C4 as amended: an overflowing append is silent (no report, no error,
no truncation); in the multi-segment fetch it additionally abandons the
remaining entries of the directory being enumerated, while enumeration
in enclosing directories continues; in `matchDir`'s descend loop the
overflowing entry alone is skipped (`continue`) and its siblings
proceed.  On `treeOverflowNested`, `D` and the enclosing sibling `e` are
reported while `D`'s entries (`m` behind the overlong name) are
abandoned; on `treeDescend`, the overlong directory is skipped and the
sibling `d` is still descended into, producing a report. -/
theorem C4_overflow_amended :
    matchDir (fun _ => true) false treeOverflowNested [] patDots 0 = [['D'], ['e']]
    ∧ matchDir (fun _ => true) false treeDescend [] patDescend 0
      = [['d', '\\', 'f', '\\', 'x']] := by
  constructor <;>
    simp [matchDir, matchDirLoop, handleEllipsisSubpath, fetchAll, fetchLoop, patternScan,
      treeOverflowNested, treeDescend, patDots, patDescend, longName_length,
      isDotsDir_longName, listDirAt, resolveDir,
      pathComponents, appendPath, pathSpaceLeft, mc_MaxPathLength, c_slash, FSEntry.name,
      FSEntry.isDirectory, FSEntry.children, isDotsDir, isEllipsis, isDoubleAsterisk,
      isMultiWildStr, isSlash, wildComp, wildEat, pathMatch, pathMatchMulti, nibbleEllipsis,
      nibbleAst, multiWildRun, skipSlashRun, tolower]

/-- C9 counterexample: the claim states that `match` returns `true`
whenever a callback is supplied and the normalized pattern list is
nonempty, even when nothing matched.  At pattern `"a"` the groomed
vector is the nonempty `[["a"]]`, yet the call does not return `true`:
the invoked vector-walker stub writes through a pointer aimed at the
read-only string literal `"dummy"` and would then enumerate the empty
`m_path`, so the call faults (undefined behaviour / an uncaught
`filesystem_error`, the `none` outcome) instead of completing. -/
theorem C9_match_stub_faults :
    getGroomedPattern ['a'] = some ([['a']], false)
    ∧ PathMatcher_match ['a'] true = none
    ∧ ¬ PathMatcher_match ['a'] true = some (true, []) := by
  refine ⟨?_, ?_, ?_⟩ <;>
    simp [PathMatcher_match, matchDirVec, patternScan, getGroomedPattern,
      stripTrailingSlashes, wstringReplace, getlineSplit, groomSegments, isSlash,
      c_ellipsis, isEllipsis, isDoubleAsterisk]

/-- C9 (amended): the Boolean result of `PathMatcher::match` reflects
neither match results nor cancellation, but not because the walk
completes: `match` returns `false` exactly when no callback is supplied
or the groomed vector is empty (grooming of empty and separator-only
patterns is itself undefined, the `none` outcomes), and with a callback
and a nonempty groomed vector the invoked vector-walker stub faults
before reporting anything, so `match` never returns `true` on any
pattern. -/
theorem C9_match_never_true :
    (∀ p : List Char, PathMatcher_match p false = some (false, []))
    ∧ (∀ p vec d, getGroomedPattern p = some (vec, d) → vec = [] →
        PathMatcher_match p true = some (false, []))
    ∧ (∀ p vec d, getGroomedPattern p = some (vec, d) → ¬ vec = [] →
        PathMatcher_match p true = none)
    ∧ (∀ (p : List Char) (r : List (List Char)),
        ¬ PathMatcher_match p true = some (true, r)) := by
  have hstub : ∀ vec, matchDirVec vec = none := by
    intro vec
    simp [matchDirVec, patternScan, isEllipsis, isDoubleAsterisk, isSlash]
  refine ⟨fun p => by simp [PathMatcher_match], ?_, ?_, ?_⟩
  · intro p vec d h he
    simp [PathMatcher_match, h, List.isEmpty_iff, he]
  · intro p vec d h hne
    simp [PathMatcher_match, h, List.isEmpty_iff, hne, hstub]
  · intro p r hcontra
    match hg : getGroomedPattern p with
    | none => simp [PathMatcher_match, hg] at hcontra
    | some (vec, d) =>
      by_cases hv : vec = []
      · simp [PathMatcher_match, hg, List.isEmpty_iff, hv] at hcontra
      · simp [PathMatcher_match, hg, List.isEmpty_iff, hv, hstub] at hcontra

/-- Witness for C9: the amended theorem applied at pattern `"."` (empty
groomed vector, clean `false` result), and at pattern `"a"` (nonempty
groomed vector: the faulting `none` outcome, hence in particular not
`some (true, [])`). -/
theorem C9_match_never_true_witness :
    PathMatcher_match ['.'] true = some (false, [])
    ∧ PathMatcher_match ['a'] true = none
    ∧ ¬ PathMatcher_match ['a'] true = some (true, []) := by
  have hdot : getGroomedPattern ['.'] = some ([], false) := by
    simp [getGroomedPattern, stripTrailingSlashes, wstringReplace, getlineSplit,
      groomSegments, isSlash, c_ellipsis]
  have ha : getGroomedPattern ['a'] = some ([['a']], false) := by
    simp [getGroomedPattern, stripTrailingSlashes, wstringReplace, getlineSplit,
      groomSegments, isSlash, c_ellipsis]
  exact ⟨C9_match_never_true.2.1 ['.'] [] false hdot rfl,
    C9_match_never_true.2.2.1 ['a'] [['a']] false ha (by simp),
    C9_match_never_true.2.2.2 ['a'] []⟩

/-- C7: in the full-path matcher, when the multi-segment wildcard run is
immediately followed by separator characters, the zero-width option —
matching the pattern remainder against the unchanged path — is tried
first, and only if it fails does the general backtracking over the
remaining path run (the left and right operands of the disjunction, in
that order); in particular ".../foo" and "**/foo" match "foo". -/
theorem C7_zero_width_priority :
    (∀ (c : Char) (rest s : List Char), isSlash c = true →
      pathMatchMulti (c :: rest) true s
        = (pathMatch ((c :: rest).dropWhile isSlash) s || nibbleEllipsis (c :: rest) s))
    ∧ pathMatch ['.', '.', '.', '/', 'f', 'o', 'o'] ['f', 'o', 'o'] = true
    ∧ pathMatch ['*', '*', '/', 'f', 'o', 'o'] ['f', 'o', 'o'] = true := by
  refine ⟨?_, ?_, ?_⟩
  · intro c rest s h
    simp only [pathMatchMulti, List.headD_cons, h, List.isEmpty_cons, and_false, if_false,
      Bool.false_eq_true, dif_pos, if_true]
    cases hpm : pathMatch ((c :: rest).dropWhile isSlash) s <;> simp [hpm]
  · simp [pathMatch, pathMatchMulti, nibbleEllipsis, nibbleAst, multiWildRun, skipSlashRun,
      isMultiWildStr, isEllipsis, isDoubleAsterisk, isSlash, tolower]
  · simp [pathMatch, pathMatchMulti, nibbleEllipsis, nibbleAst, multiWildRun, skipSlashRun,
      isMultiWildStr, isEllipsis, isDoubleAsterisk, isSlash, tolower]

/-- Witness for C7: the zero-width priority equation at the concrete
state `"/f"` after the wildcard run, against path `"f"`. -/
theorem C7_zero_width_priority_witness :
    pathMatchMulti ['/', 'f'] true ['f']
      = (pathMatch (['/', 'f'].dropWhile isSlash) ['f'] || nibbleEllipsis ['/', 'f'] ['f']) :=
  C7_zero_width_priority.1 '/' ['f'] ['f'] (by decide)

theorem tolower_isSlash (c : Char) : isSlash (tolower c) = isSlash c := by
  unfold tolower
  split
  · rename_i h
    obtain ⟨h1, h2⟩ := h
    have hA : 65 ≤ c.toNat := h1
    have hZ : c.toNat ≤ 90 := h2
    have hv : (c.toNat + 32).isValidChar := by
      left
      omega
    have ht : (Char.ofNat (c.toNat + 32)).toNat = c.toNat + 32 := by
      rw [Char.ofNat, dif_pos hv]
      rfl
    have hne1 : ¬ Char.ofNat (c.toNat + 32) = '/' := by
      intro he
      have h3 := congrArg Char.toNat he
      rw [ht] at h3
      have h4 : ('/' : Char).toNat = 47 := by decide
      rw [h4] at h3
      omega
    have hne2 : ¬ Char.ofNat (c.toNat + 32) = '\\' := by
      intro he
      have h3 := congrArg Char.toNat he
      rw [ht] at h3
      have h4 : ('\\' : Char).toNat = 92 := by decide
      rw [h4] at h3
      omega
    have hcs1 : ¬ c = '/' := by
      intro he
      rw [he] at hA
      exact absurd hA (by decide)
    have hcs2 : ¬ c = '\\' := by
      intro he
      rw [he] at hZ
      exact absurd hZ (by decide)
    simp [isSlash, hne1, hne2, hcs1, hcs2]
  · rfl

theorem tolower_slash_ne (c d : Char) (hc : isSlash c = false) (hd : isSlash d = true) :
    ¬ tolower c = tolower d := by
  intro he
  have h1 := tolower_isSlash c
  have h2 := tolower_isSlash d
  rw [he, h2] at h1
  rw [hd] at h1
  rw [hc] at h1
  exact absurd h1 (by decide)

theorem skipSlashRun_tail_eq (c : Char) (t : List Char) (h : isSlash c = true) :
    (skipSlashRun (c :: t)).tail = t.dropWhile (fun x => isSlash x) := by
  induction t generalizing c with
  | nil => simp [skipSlashRun]
  | cons d rest ih =>
    by_cases hd : isSlash d = true
    · rw [skipSlashRun]
      simp only [hd, if_true]
      rw [ih d hd]
      simp [List.dropWhile_cons, hd]
    · rw [skipSlashRun]
      simp only [hd, Bool.false_eq_true, if_false]
      simp [List.dropWhile_cons, hd]

theorem skipSlashRun_head (c : Char) (t : List Char) (h : isSlash c = true) :
    isSlash ((skipSlashRun (c :: t)).headD '\x00') = true := by
  induction t generalizing c with
  | nil => simpa [skipSlashRun]
  | cons d rest ih =>
    by_cases hd : isSlash d = true
    · rw [skipSlashRun]
      simp only [hd, if_true]
      exact ih d hd
    · rw [skipSlashRun]
      simp only [hd, Bool.false_eq_true, if_false]
      simpa

theorem literalPattern_cons {c : Char} {t : List Char} (h : literalPattern (c :: t) = true) :
    ¬ c = '*' ∧ ¬ c = '?' ∧ isEllipsis (c :: t) = false ∧ literalPattern t = true := by
  simp only [literalPattern, Bool.and_eq_true, Bool.not_eq_true', decide_eq_false_iff_not] at h
  exact ⟨h.1.1.1, h.1.1.2, h.1.2, h.2⟩

theorem literalPattern_notMW {p : List Char} (h : literalPattern p = true) :
    isMultiWildStr p = false := by
  cases p with
  | nil => decide
  | cons c t =>
    obtain ⟨h1, _, h3, _⟩ := literalPattern_cons h
    simp [isMultiWildStr, h3, h1]

theorem literalPattern_append_right {a b : List Char} (h : literalPattern (a ++ b) = true) :
    literalPattern b = true := by
  induction a with
  | nil => exact h
  | cons x t ih => exact ih (literalPattern_cons h).2.2.2

theorem literalPattern_suffix {p q : List Char} (hs : q <:+ p) (hp : literalPattern p = true) :
    literalPattern q = true := by
  obtain ⟨r, rfl⟩ := hs
  exact literalPattern_append_right hp

theorem dropWhile_map_tolower (t : List Char) :
    (t.map tolower).dropWhile (fun x => isSlash x)
      = (t.dropWhile (fun x => isSlash x)).map tolower := by
  induction t with
  | nil => simp
  | cons a r ih =>
    have ha := tolower_isSlash a
    by_cases h : isSlash a = true
    · rw [h] at ha
      simp [List.dropWhile_cons, h, ha, ih]
    · rw [eq_false_of_ne_true h] at ha
      simp only [Bool.not_eq_true] at h
      simp [List.dropWhile_cons, h, ha]

theorem specCanon_nil : specCanon [] = [] := by
  simp [specCanon, specSepNormalize]

theorem specCanon_cons_slash (c : Char) (t : List Char) (h : isSlash c = true) :
    specCanon (c :: t) = '/' :: specCanon (t.dropWhile (fun x => isSlash x)) := by
  have h1 : isSlash (tolower c) = true := by rw [tolower_isSlash]; exact h
  simp only [specCanon, List.map_cons]
  rw [specSepNormalize]
  simp only [h1, if_true]
  rw [dropWhile_map_tolower]

theorem specCanon_cons_lit (c : Char) (t : List Char) (h : isSlash c = false) :
    specCanon (c :: t) = tolower c :: specCanon t := by
  have h1 : isSlash (tolower c) = false := by rw [tolower_isSlash]; exact h
  simp only [specCanon, List.map_cons]
  rw [specSepNormalize]
  simp [h1]

theorem pathMatch_self_aux : ∀ n (p : List Char), p.length ≤ n → literalPattern p = true →
    pathMatch p p = true := by
  intro n
  induction n with
  | zero =>
    intro p hl _
    have hp : p = [] := List.eq_nil_of_length_eq_zero (Nat.le_zero.1 hl)
    subst hp
    simp [pathMatch]
  | succ n ih =>
    intro p hl hp
    match p with
    | [] => simp [pathMatch]
    | c :: t =>
      obtain ⟨h1, h2, h3, h4⟩ := literalPattern_cons hp
      have hMW : isMultiWildStr (c :: t) = false := literalPattern_notMW hp
      have hlt : t.length ≤ n := by
        simp only [List.length_cons] at hl
        omega
      by_cases hc : isSlash c = true
      · have hhead := skipSlashRun_head c t hc
        have htail := skipSlashRun_tail_eq c t hc
        rw [pathMatch]
        simp only [hc, if_true, hhead, not_true_eq_false, if_false, ite_true, ite_false, ne_eq,
          not_true_eq_false, not_false_eq_true, Bool.true_eq_false]
        rw [htail]
        exact ih _ (le_trans (List.dropWhile_suffix _).length_le hlt)
          (literalPattern_suffix (List.dropWhile_suffix _) h4)
      · have hcf : isSlash c = false := eq_false_of_ne_true hc
        rw [pathMatch]
        simp only [hcf, Bool.false_eq_true, if_false, ite_false, hMW, dite_eq_ite, List.headD_cons,
          List.tail_cons, ne_eq]
        simp only [not_true_eq_false, if_false, ite_false, ite_self]
        exact ih t hlt h4

theorem pathMatch_canon_aux : ∀ n (p q : List Char), p.length + q.length ≤ n →
    literalPattern p = true → pathMatch p q = true → specCanon p = specCanon q := by
  intro n
  induction n with
  | zero =>
    intro p q hl _ _
    have hp : p = [] := by cases p <;> simp_all
    have hq : q = [] := by cases q <;> simp_all
    subst hp; subst hq; rfl
  | succ n ih =>
    intro p q hl hp hm
    match p, q with
    | [], q =>
      rw [pathMatch] at hm
      have hq : q = [] := by cases q <;> simp_all
      subst hq; rfl
    | c :: t, [] =>
      obtain ⟨h1, h2, h3, h4⟩ := literalPattern_cons hp
      have hMW : isMultiWildStr (c :: t) = false := literalPattern_notMW hp
      rw [pathMatch] at hm
      rw [dif_neg (by simp [hMW])] at hm
      exact absurd hm (by simp)
    | c :: t, d :: u =>
      obtain ⟨h1, h2, h3, h4⟩ := literalPattern_cons hp
      have hMW : isMultiWildStr (c :: t) = false := literalPattern_notMW hp
      have hlt : t.length + u.length ≤ n := by
        simp only [List.length_cons] at hl
        omega
      by_cases hc : isSlash c = true
      · by_cases hd : isSlash d = true
        · have hheads := skipSlashRun_head d u hd
          have htailp := skipSlashRun_tail_eq c t hc
          have htails := skipSlashRun_tail_eq d u hd
          rw [pathMatch] at hm
          simp only [hc, hd, if_true, ite_true, hheads, not_true_eq_false, if_false, ite_false,
            ne_eq] at hm
          split at hm
          · exact absurd hm (by simp)
          · rw [htailp, htails] at hm
            rw [specCanon_cons_slash c t hc, specCanon_cons_slash d u hd]
            congr 1
            exact ih _ _
              (le_trans (Nat.add_le_add (List.dropWhile_suffix _).length_le
                (List.dropWhile_suffix _).length_le) hlt)
              (literalPattern_suffix (List.dropWhile_suffix _) h4) hm
        · have hdf : isSlash d = false := eq_false_of_ne_true hd
          rw [pathMatch] at hm
          simp [hc, hdf] at hm
      · have hcf : isSlash c = false := eq_false_of_ne_true hc
        by_cases hd : isSlash d = true
        · have hne := tolower_slash_ne c ((skipSlashRun (d :: u)).headD '\x00') hcf
            (skipSlashRun_head d u hd)
          rw [pathMatch] at hm
          simp [hd, hcf, hMW, h2] at hm
          simp only [List.headD_eq_head?_getD] at hne
          exact absurd hm.1 hne
        · have hdf : isSlash d = false := eq_false_of_ne_true hd
          rw [pathMatch] at hm
          simp only [hdf, Bool.false_eq_true, if_false, ite_false, hcf, List.headD_cons,
            List.tail_cons] at hm
          rw [dif_neg (by simp [hMW])] at hm
          rw [if_pos h2] at hm
          split at hm
          · exact absurd hm (by simp)
          · rename_i htl
            have htl' : tolower c = tolower d := not_not.1 htl
            rw [specCanon_cons_lit c t hcf, specCanon_cons_lit d u hdf, htl']
            congr 1
            exact ih t u hlt h4 hm

/-- C6 counterexample: the claim demands `pathMatch P Q = false` for every
path `Q` differing from the literal pattern `P` after separator
normalization alone.  `P = "a"`, `Q = "A"` differ after separator
normalization (which does not fold case), yet they match: `pathMatch`
folds case with `tolower` on literal positions. -/
theorem C6_case_insensitive_counterexample :
    literalPattern ['a'] = true
    ∧ ¬ specSepNormalize ['a'] = specSepNormalize ['A']
    ∧ pathMatch ['a'] ['A'] = true := by
  refine ⟨by decide, ?_, ?_⟩
  · simp [specSepNormalize, isSlash]
  · have hA : tolower 'A' = 'a' := by decide
    simp [pathMatch, isMultiWildStr, isEllipsis, isSlash, tolower, hA]

/-- C6 (amended): for every literal pattern `P` (no `'*'`, no `'?'`, no
`"..."` token), `pathMatch P P = true`; and `pathMatch P Q = false` for
every path `Q` that differs from `P` after separator normalization AND
ASCII case folding (`specCanon`). -/
theorem C6_literal_match (P Q : List Char) (hP : literalPattern P = true) :
    pathMatch P P = true ∧ (¬ specCanon P = specCanon Q → pathMatch P Q = false) := by
  constructor
  · exact pathMatch_self_aux P.length P (le_refl _) hP
  · intro hne
    by_cases hm : pathMatch P Q = true
    · exact absurd (pathMatch_canon_aux (P.length + Q.length) P Q (le_refl _) hP hm) hne
    · exact eq_false_of_ne_true hm

/-- Witness for C6: the amended theorem applied at the literal pattern
`"ab"`, matched against itself and against the differing path `"a"`. -/
theorem C6_literal_match_witness :
    literalPattern ['a', 'b'] = true
    ∧ pathMatch ['a', 'b'] ['a', 'b'] = true
    ∧ pathMatch ['a', 'b'] ['a'] = false := by
  refine ⟨by decide, (C6_literal_match ['a', 'b'] ['a'] (by decide)).1,
    (C6_literal_match ['a', 'b'] ['a'] (by decide)).2 ?_⟩
  simp [specCanon, specSepNormalize, tolower, isSlash]

theorem isEllipsis_not_dot1 (x : Char) (L : List Char) (h : ¬ x = '.') :
    isEllipsis (x :: L) = false := by
  rw [isEllipsis.eq_def]
  split
  · rename_i heq
    injection heq with h1 _
    exact absurd h1 h
  · rfl

theorem isEllipsis_not_dot2 (x y : Char) (L : List Char) (h : ¬ y = '.') :
    isEllipsis (x :: y :: L) = false := by
  rw [isEllipsis.eq_def]
  split
  · rename_i heq
    injection heq with _ heq2
    injection heq2 with h2 _
    exact absurd h2 h
  · rfl

theorem isEllipsis_not_dot3 (x y z : Char) (L : List Char) (h : ¬ z = '.') :
    isEllipsis (x :: y :: z :: L) = false := by
  rw [isEllipsis.eq_def]
  split
  · rename_i heq
    injection heq with _ heq2
    injection heq2 with _ heq3
    injection heq3 with h3 _
    exact absurd h3 h
  · rfl

theorem multiWildRun_stop (p : List Char) (h : isMultiWildStr p = false) :
    multiWildRun p = (p, false) := by
  induction p using multiWildRun.induct with
  | case1 rest ih => simp [isMultiWildStr, isEllipsis] at h
  | case2 rest ih => simp [isMultiWildStr] at h
  | case3 rest ih => simp [isMultiWildStr] at h
  | case4 p h1 h2 h3 =>
    simp_all [multiWildRun]

theorem multiWildRun_star_fst : ∀ n (B : List Char), B.length ≤ n →
    (multiWildRun ('*' :: B)).1 = (multiWildRun B).1 := by
  intro n
  induction n with
  | zero =>
    intro B hB
    have : B = [] := List.eq_nil_of_length_eq_zero (Nat.le_zero.1 hB)
    subst this
    simp [multiWildRun]
  | succ n ih =>
    intro B hB
    match B with
    | [] => simp [multiWildRun]
    | b :: B2 =>
      by_cases hb : b = '*'
      · subst hb
        have h1 : multiWildRun ('*' :: '*' :: B2) = ((multiWildRun B2).1, true) := by
          simp [multiWildRun]
        rw [h1]
        have h2 : (multiWildRun ('*' :: B2)).1 = (multiWildRun B2).1 := by
          apply ih
          simp only [List.length_cons] at hB ⊢
          omega
        rw [h2]
      · have h1 : multiWildRun ('*' :: b :: B2) = multiWildRun (b :: B2) := by
          rw [multiWildRun.eq_def]
          split
          · rename_i rest heq
            injection heq with hh _
            exact absurd hh (by decide)
          · rename_i rest heq
            injection heq with _ heq2
            injection heq2 with hh _
            exact absurd hh hb
          · rename_i rest heq
            injection heq with _ hh
            rw [hh]
          · rename_i h1 h2 h3
            exact absurd rfl (h3 (b :: B2))
        rw [h1]

theorem noDotLast_tail (c : Char) (A : List Char) (h : ¬ (c :: A).getLast? = some '.') :
    ¬ A.getLast? = some '.' := by
  match A with
  | [] => simp
  | a :: A2 =>
    rw [List.getLast?_cons_cons] at h
    exact h

theorem noDotLast_suffix (A2 A1 : List Char) (hs : A2 <:+ A1)
    (h : ¬ A1.getLast? = some '.') : ¬ A2.getLast? = some '.' := by
  obtain ⟨pre, rfl⟩ := hs
  induction pre with
  | nil => exact h
  | cons x xs ih =>
    exact ih (noDotLast_tail x (xs ++ A2) h)

theorem dropWhile_append_form (A : List Char) (c : Char) (L : List Char)
    (h : isSlash c = false) :
    List.dropWhile isSlash (A ++ c :: L) = A.dropWhile isSlash ++ c :: L := by
  induction A with
  | nil => simp [List.dropWhile_cons, h]
  | cons a A2 ih =>
    by_cases ha : isSlash a = true
    · simp [List.dropWhile_cons, ha, ih]
    · have ha2 : isSlash a = false := eq_false_of_ne_true ha
      simp [List.dropWhile_cons, ha2]

theorem skipSlashRun_head_eq (X L1 L2 : List Char)
    (h1 : isSlash (L1.headD '\x00') = false) (h2 : isSlash (L2.headD '\x00') = false) :
    ∀ c, (skipSlashRun (c :: (X ++ L1))).headD '\x00'
      = (skipSlashRun (c :: (X ++ L2))).headD '\x00' := by
  induction X with
  | nil =>
    intro c
    match hL1 : L1, hL2 : L2 with
    | [], [] => rfl
    | [], d :: t =>
      simp only [List.headD_cons] at h2
      simp [skipSlashRun, h2]
    | d :: t, [] =>
      simp only [List.headD_cons] at h1
      simp [skipSlashRun, h1]
    | d :: t, e :: u =>
      simp only [List.headD_cons] at h1 h2
      simp [skipSlashRun, h1, h2]
  | cons a X2 ih =>
    intro c
    by_cases ha : isSlash a = true
    · simp only [List.cons_append, skipSlashRun, ha, if_true, ite_true]
      exact ih a
    · have ha2 : isSlash a = false := eq_false_of_ne_true ha
      simp [List.cons_append, skipSlashRun, ha2]

theorem isEllipsis_three (x y z : Char) (L : List Char) :
    isEllipsis (x :: y :: z :: L)
      = (decide (x = '.') && decide (y = '.') && decide (z = '.')) := by
  by_cases hx : x = '.'
  · by_cases hy : y = '.'
    · by_cases hz : z = '.'
      · subst hx; subst hy; subst hz
        simp [isEllipsis]
      · subst hx; subst hy
        simp [isEllipsis_not_dot3 _ _ _ _ hz, hz]
    · subst hx
      simp [isEllipsis_not_dot2 _ _ _ hy, hy]
  · simp [isEllipsis_not_dot1 _ _ hx, hx]

theorem isMW_tok_eq (A B : List Char) (h : ¬ A.getLast? = some '.') :
    isMultiWildStr (A ++ ['.', '.', '.'] ++ B) = isMultiWildStr (A ++ ['*', '*'] ++ B) := by
  match A with
  | [] =>
    simp [isMultiWildStr, isEllipsis]
  | [x] =>
    have hx : ¬ x = '.' := by
      intro he
      exact h (by rw [he]; rfl)
    simp only [List.cons_append, List.nil_append]
    simp [isMultiWildStr, isEllipsis_three, hx]
  | [x, y] =>
    have hy : ¬ y = '.' := by
      intro he
      exact h (by rw [he]; rfl)
    simp only [List.cons_append, List.nil_append]
    simp [isMultiWildStr, isEllipsis_three, hy]
  | x :: y :: z :: A3 =>
    simp only [List.cons_append]
    simp [isMultiWildStr, isEllipsis_three]


theorem mwr_step_dots (L : List Char) :
    multiWildRun ('.' :: '.' :: '.' :: L) = ((multiWildRun L).1, true) := by
  simp [multiWildRun]

theorem mwr_step_stars (L : List Char) :
    multiWildRun ('*' :: '*' :: L) = ((multiWildRun L).1, true) := by
  simp [multiWildRun]

theorem mwr_step_star (c : Char) (L : List Char) (h : ¬ c = '*') :
    multiWildRun ('*' :: c :: L) = multiWildRun (c :: L) := by
  simp [multiWildRun, h]

theorem mwrTok : ∀ n (A1 B : List Char), A1.length ≤ n → ¬ A1.getLast? = some '.' →
    (multiWildRun (A1 ++ ['.', '.', '.'] ++ B) = ((multiWildRun B).1, true)
      ∧ multiWildRun (A1 ++ ['*', '*'] ++ B) = ((multiWildRun B).1, true))
    ∨ (∃ A2 f, ¬ A2 = [] ∧ A2.length ≤ A1.length ∧ ¬ A2.getLast? = some '.'
        ∧ (isMultiWildStr (A1 ++ ['.', '.', '.'] ++ B) = true → A2.length < A1.length)
        ∧ isMultiWildStr (A2 ++ ['.', '.', '.'] ++ B) = false
        ∧ isMultiWildStr (A2 ++ ['*', '*'] ++ B) = false
        ∧ multiWildRun (A1 ++ ['.', '.', '.'] ++ B) = (A2 ++ ['.', '.', '.'] ++ B, f)
        ∧ multiWildRun (A1 ++ ['*', '*'] ++ B) = (A2 ++ ['*', '*'] ++ B, f)) := by
  intro n
  induction n with
  | zero =>
    intro A1 B hl _
    have hA : A1 = [] := List.eq_nil_of_length_eq_zero (Nat.le_zero.1 hl)
    subst hA
    left
    constructor
    · simp [multiWildRun]
    · simp [multiWildRun]
  | succ n ih =>
    intro A1 B hl hInv
    match A1 with
    | [] =>
      left
      constructor
      · simp [multiWildRun]
      · simp [multiWildRun]
    | [x] =>
      have hx : ¬ x = '.' := by
        intro he
        exact hInv (by rw [he]; rfl)
      by_cases hxs : x = '*'
      · subst hxs
        left
        constructor
        · simp only [List.cons_append, List.nil_append]
          rw [mwr_step_star '.' _ (by decide), mwr_step_dots]
        · have hstar := multiWildRun_star_fst B.length B (le_refl _)
          simp only [List.cons_append, List.nil_append]
          rw [mwr_step_stars, hstar]
      · right
        have hmw1 : isMultiWildStr ([x] ++ ['.', '.', '.'] ++ B) = false := by
          simp [isMultiWildStr, isEllipsis_three, hx, hxs]
        have hmw2 : isMultiWildStr ([x] ++ ['*', '*'] ++ B) = false := by
          simp [isMultiWildStr, isEllipsis_three, hxs]
        refine ⟨[x], false, by simp, le_refl _, hInv, ?_, hmw1, hmw2,
          multiWildRun_stop _ hmw1, multiWildRun_stop _ hmw2⟩
        intro hMW
        rw [hMW] at hmw1
        exact absurd hmw1 (by decide)
    | [x, y] =>
      have hy : ¬ y = '.' := by
        intro he
        exact hInv (by rw [he]; rfl)
      by_cases hxs : x = '*'
      · by_cases hys : y = '*'
        · subst hxs; subst hys
          left
          constructor
          · simp only [List.cons_append, List.nil_append]
            rw [mwr_step_stars, mwr_step_dots]
          · simp only [List.cons_append, List.nil_append]
            rw [mwr_step_stars, mwr_step_stars]
        · subst hxs
          have hIH := ih [y] B (by simp only [List.length_cons] at hl ⊢; omega)
            (by intro he; exact hInv (by rw [List.getLast?_cons_cons]; exact he))
          rcases hIH with ⟨he1, he2⟩ | ⟨A2, f, hne, hlen, hinv2, _, hm1, hm2, hq1, hq2⟩
          · left
            constructor
            · simp only [List.cons_append, List.nil_append] at he1 ⊢
              rw [mwr_step_star y _ hys, he1]
            · simp only [List.cons_append, List.nil_append] at he2 ⊢
              rw [mwr_step_star y _ hys, he2]
          · right
            refine ⟨A2, f, hne, by simp only [List.length_cons] at hlen ⊢; omega, hinv2,
              ?_, hm1, hm2, ?_, ?_⟩
            · intro _
              simp only [List.length_cons] at hlen ⊢
              omega
            · simp only [List.cons_append, List.nil_append] at hq1 ⊢
              rw [mwr_step_star y _ hys, hq1]
            · simp only [List.cons_append, List.nil_append] at hq2 ⊢
              rw [mwr_step_star y _ hys, hq2]
      · right
        have hmw1 : isMultiWildStr ([x, y] ++ ['.', '.', '.'] ++ B) = false := by
          simp [isMultiWildStr, isEllipsis_three, hy, hxs]
        have hmw2 : isMultiWildStr ([x, y] ++ ['*', '*'] ++ B) = false := by
          simp [isMultiWildStr, isEllipsis_three, hxs]
        refine ⟨[x, y], false, by simp, le_refl _, hInv, ?_, hmw1, hmw2,
          multiWildRun_stop _ hmw1, multiWildRun_stop _ hmw2⟩
        intro hMW
        rw [hMW] at hmw1
        exact absurd hmw1 (by decide)
    | x :: y :: z :: A3 =>
      by_cases hddd : x = '.' ∧ y = '.' ∧ z = '.'
      · obtain ⟨hx, hy, hz⟩ := hddd
        subst hx; subst hy; subst hz
        have hInv3 : ¬ A3.getLast? = some '.' :=
          noDotLast_tail _ _ (noDotLast_tail _ _ (noDotLast_tail _ _ hInv))
        have hIH := ih A3 B (by simp only [List.length_cons] at hl; omega) hInv3
        rcases hIH with ⟨he1, he2⟩ | ⟨A2, f, hne, hlen, hinv2, _, hm1, hm2, hq1, hq2⟩
        · left
          constructor
          · simp only [List.cons_append, List.nil_append] at he1 ⊢
            rw [mwr_step_dots, he1]
          · simp only [List.cons_append, List.nil_append] at he2 ⊢
            rw [mwr_step_dots, he2]
        · right
          refine ⟨A2, true, hne, by simp only [List.length_cons]; omega, hinv2,
            ?_, hm1, hm2, ?_, ?_⟩
          · intro _
            simp only [List.length_cons]
            omega
          · simp only [List.cons_append, List.nil_append] at hq1 ⊢
            rw [mwr_step_dots, hq1]
          · simp only [List.cons_append, List.nil_append] at hq2 ⊢
            rw [mwr_step_dots, hq2]
      · by_cases hxs : x = '*'
        · subst hxs
          by_cases hys : y = '*'
          · subst hys
            have hInv3 : ¬ (z :: A3).getLast? = some '.' :=
              noDotLast_tail _ _ (noDotLast_tail _ _ hInv)
            have hIH := ih (z :: A3) B (by simp only [List.length_cons] at hl ⊢; omega) hInv3
            rcases hIH with ⟨he1, he2⟩ | ⟨A2, f, hne, hlen, hinv2, _, hm1, hm2, hq1, hq2⟩
            · left
              constructor
              · simp only [List.cons_append, List.nil_append] at he1 ⊢
                rw [mwr_step_stars, he1]
              · simp only [List.cons_append, List.nil_append] at he2 ⊢
                rw [mwr_step_stars, he2]
            · right
              refine ⟨A2, true, hne, ?_, hinv2, ?_, hm1, hm2, ?_, ?_⟩
              · simp only [List.length_cons] at hlen ⊢
                omega
              · intro _
                simp only [List.length_cons] at hlen ⊢
                omega
              · simp only [List.cons_append, List.nil_append] at hq1 ⊢
                rw [mwr_step_stars, hq1]
              · simp only [List.cons_append, List.nil_append] at hq2 ⊢
                rw [mwr_step_stars, hq2]
          · have hInv3 : ¬ (y :: z :: A3).getLast? = some '.' := noDotLast_tail _ _ hInv
            have hIH := ih (y :: z :: A3) B (by simp only [List.length_cons] at hl ⊢; omega) hInv3
            rcases hIH with ⟨he1, he2⟩ | ⟨A2, f, hne, hlen, hinv2, _, hm1, hm2, hq1, hq2⟩
            · left
              constructor
              · simp only [List.cons_append, List.nil_append] at he1 ⊢
                rw [mwr_step_star y _ hys, he1]
              · simp only [List.cons_append, List.nil_append] at he2 ⊢
                rw [mwr_step_star y _ hys, he2]
            · right
              refine ⟨A2, f, hne, ?_, hinv2, ?_, hm1, hm2, ?_, ?_⟩
              · simp only [List.length_cons] at hlen ⊢
                omega
              · intro _
                simp only [List.length_cons] at hlen ⊢
                omega
              · simp only [List.cons_append, List.nil_append] at hq1 ⊢
                rw [mwr_step_star y _ hys, hq1]
              · simp only [List.cons_append, List.nil_append] at hq2 ⊢
                rw [mwr_step_star y _ hys, hq2]
        · right
          have hth : (decide (x = '.') && decide (y = '.') && decide (z = '.')) = false := by
            rcases Decidable.not_and_iff_or_not.1 hddd with hh | hh
            · simp [hh]
            · rcases Decidable.not_and_iff_or_not.1 hh with hh2 | hh2 <;> simp [hh2]
          have hmw1 : isMultiWildStr ((x :: y :: z :: A3) ++ ['.', '.', '.'] ++ B) = false := by
            simp only [List.cons_append]
            simp [isMultiWildStr, isEllipsis_three, hxs]
            simp only [isEllipsis_three] at *
            intro h1 h2
            simp [h1, h2] at hth
            exact hth
          have hmw2 : isMultiWildStr ((x :: y :: z :: A3) ++ ['*', '*'] ++ B) = false := by
            simp only [List.cons_append]
            simp [isMultiWildStr, isEllipsis_three, hxs]
            intro h1 h2
            simp [h1, h2] at hth
            exact hth
          refine ⟨x :: y :: z :: A3, false, by simp, le_refl _, hInv, ?_, hmw1, hmw2,
            multiWildRun_stop _ hmw1, multiWildRun_stop _ hmw2⟩
          intro hMW
          rw [hMW] at hmw1
          exact absurd hmw1 (by decide)

theorem isMW_dots (B : List Char) : isMultiWildStr ('.' :: '.' :: '.' :: B) = true := by
  simp [isMultiWildStr, isEllipsis]

theorem isMW_stars (B : List Char) : isMultiWildStr ('*' :: '*' :: B) = true := by
  simp [isMultiWildStr]

theorem pm_nil_dots (B : List Char) (s : List Char) :
    pathMatch ('.' :: '.' :: '.' :: B) s
      = pathMatchMulti (multiWildRun B).1 true
          (match s with
            | [] => ([] : List Char)
            | sc :: st => if isSlash sc then skipSlashRun (sc :: st) else sc :: st) := by
  match s with
  | [] =>
    rw [pathMatch]
    rw [dif_pos (isMW_dots B)]
    rw [mwr_step_dots]
  | sc :: st =>
    rw [pathMatch]
    rw [if_neg (by simp [isSlash])]
    rw [dif_pos (isMW_dots B)]
    rw [mwr_step_dots]

theorem pm_nil_stars (B : List Char) (s : List Char) :
    pathMatch ('*' :: '*' :: B) s
      = pathMatchMulti (multiWildRun B).1 true
          (match s with
            | [] => ([] : List Char)
            | sc :: st => if isSlash sc then skipSlashRun (sc :: st) else sc :: st) := by
  match s with
  | [] =>
    rw [pathMatch]
    rw [dif_pos (isMW_stars B)]
    rw [mwr_step_stars]
  | sc :: st =>
    rw [pathMatch]
    rw [if_neg (by simp [isSlash])]
    rw [dif_pos (isMW_stars B)]
    rw [mwr_step_stars]

theorem tokBundleNil (B : List Char) :
    (∀ s, pathMatch ('.' :: '.' :: '.' :: B) s = pathMatch ('*' :: '*' :: B) s)
    ∧ (∀ s,
        nibbleEllipsis ('.' :: '.' :: '.' :: B) s = nibbleEllipsis ('*' :: '*' :: B) s
        ∧ nibbleAst ('.' :: '.' :: '.' :: B) s = nibbleAst ('*' :: '*' :: B) s
        ∧ ∀ f, pathMatchMulti ('.' :: '.' :: '.' :: B) f s
            = pathMatchMulti ('*' :: '*' :: B) f s) := by
  have hpm : ∀ s, pathMatch ('.' :: '.' :: '.' :: B) s = pathMatch ('*' :: '*' :: B) s := by
    intro s
    rw [pm_nil_dots, pm_nil_stars]
  refine ⟨hpm, ?_⟩
  intro s
  induction s with
  | nil =>
    refine ⟨?_, ?_, ?_⟩
    · simp only [nibbleEllipsis]
      rw [hpm []]
    · simp only [nibbleAst]
      exact hpm []
    · intro f
      simp only [pathMatchMulti]
      rw [dif_neg (by simp [isSlash]), dif_neg (by simp [isSlash])]
      simp only [List.isEmpty_cons, Bool.false_eq_true, and_false, if_false, ite_false]
      match f with
      | true =>
        simp only [if_true, ite_true]
        simp only [nibbleEllipsis]
        rw [hpm []]
      | false =>
        simp only [Bool.false_eq_true, if_false, ite_false]
        simp only [nibbleAst]
        exact hpm []
  | cons sc st ihs =>
    obtain ⟨ihne, ihna, ihmm⟩ := ihs
    have hne : nibbleEllipsis ('.' :: '.' :: '.' :: B) (sc :: st)
        = nibbleEllipsis ('*' :: '*' :: B) (sc :: st) := by
      simp only [nibbleEllipsis]
      rw [hpm (sc :: st), ihne]
    have hna : nibbleAst ('.' :: '.' :: '.' :: B) (sc :: st)
        = nibbleAst ('*' :: '*' :: B) (sc :: st) := by
      simp only [nibbleAst]
      rw [hpm (sc :: st), ihna]
    refine ⟨hne, hna, ?_⟩
    intro f
    simp only [pathMatchMulti]
    rw [dif_neg (by simp [isSlash]), dif_neg (by simp [isSlash])]
    simp only [List.isEmpty_cons, Bool.false_eq_true, and_false, if_false, ite_false]
    match f with
    | true =>
      simp only [if_true, ite_true]
      exact hne
    | false =>
      simp only [Bool.false_eq_true, if_false, ite_false]
      exact hna

theorem tokBundle : ∀ a (A1 B : List Char), A1.length ≤ a → ¬ A1.getLast? = some '.' →
    (∀ s, pathMatch (A1 ++ ['.', '.', '.'] ++ B) s = pathMatch (A1 ++ ['*', '*'] ++ B) s)
    ∧ (∀ s,
        nibbleEllipsis (A1 ++ ['.', '.', '.'] ++ B) s = nibbleEllipsis (A1 ++ ['*', '*'] ++ B) s
        ∧ nibbleAst (A1 ++ ['.', '.', '.'] ++ B) s = nibbleAst (A1 ++ ['*', '*'] ++ B) s
        ∧ ∀ f, pathMatchMulti (A1 ++ ['.', '.', '.'] ++ B) f s
            = pathMatchMulti (A1 ++ ['*', '*'] ++ B) f s) := by
  intro a
  induction a with
  | zero =>
    intro A1 B hl hInv
    have hA : A1 = [] := List.eq_nil_of_length_eq_zero (Nat.le_zero.1 hl)
    subst hA
    simp only [List.append_assoc, List.nil_append, List.cons_append]
    exact tokBundleNil B
  | succ a ih =>
    intro A1 B hl hInv
    match A1 with
    | [] =>
      simp only [List.nil_append, List.cons_append]
      exact tokBundleNil B
    | c :: A2 =>
      simp only [List.append_assoc, List.cons_append, List.nil_append] at hInv ⊢
      have hlt : A2.length ≤ a := by
        simp only [List.length_cons] at hl
        omega
      have hInv2 : ¬ A2.getLast? = some '.' := noDotLast_tail _ _ hInv
      by_cases hcs : isSlash c = true
      · -- pattern head is a slash
        have hcstar : ¬ c = '*' := by
          intro he
          subst he
          simp [isSlash] at hcs
        have hcdot : ¬ c = '.' := by
          intro he
          subst he
          simp [isSlash] at hcs
        have hmw1 : isMultiWildStr (c :: (A2 ++ '.' :: '.' :: '.' :: B)) = false := by
          simp [isMultiWildStr, isEllipsis_not_dot1 _ _ hcdot, hcstar]
        have hmw2 : isMultiWildStr (c :: (A2 ++ '*' :: '*' :: B)) = false := by
          simp [isMultiWildStr, isEllipsis_not_dot1 _ _ hcdot, hcstar]
        have hrecD := (ih (A2.dropWhile isSlash) B
          (le_trans (List.dropWhile_suffix _).length_le hlt)
          (noDotLast_suffix _ _ (List.dropWhile_suffix _) hInv2)).1
        simp only [List.append_assoc, List.cons_append, List.nil_append] at hrecD
        have hpm : ∀ s, pathMatch (c :: (A2 ++ '.' :: '.' :: '.' :: B)) s
            = pathMatch (c :: (A2 ++ '*' :: '*' :: B)) s := by
          intro s
          match s with
          | [] =>
            rw [pathMatch]
            rw [dif_neg (by simp [hmw1])]
            rw [pathMatch]
            rw [dif_neg (by simp [hmw2])]
          | sc :: st =>
            simp only [pathMatch, hcs, if_true, ite_true]
            have hhead := skipSlashRun_head_eq A2 ('.' :: '.' :: '.' :: B) ('*' :: '*' :: B)
              (by rw [List.headD_cons]; decide) (by rw [List.headD_cons]; decide) c
            rw [hhead]
            rw [skipSlashRun_tail_eq c (A2 ++ '.' :: '.' :: '.' :: B) hcs,
              skipSlashRun_tail_eq c (A2 ++ '*' :: '*' :: B) hcs]
            rw [dropWhile_append_form A2 '.' ('.' :: '.' :: B) (by decide),
              dropWhile_append_form A2 '*' ('*' :: B) (by decide)]
            rw [hrecD]
        refine ⟨hpm, ?_⟩
        intro s
        induction s with
        | nil =>
          refine ⟨?_, ?_, ?_⟩
          · simp only [nibbleEllipsis]
            rw [hpm []]
          · simp only [nibbleAst]
            exact hpm []
          · intro f
            simp only [pathMatchMulti]
            rw [dif_pos (by simp only [List.headD_cons]; exact hcs),
              dif_pos (by simp only [List.headD_cons]; exact hcs)]
            simp only [List.isEmpty_cons, Bool.false_eq_true, and_false, if_false, ite_false]
            simp only [List.dropWhile_cons, hcs, if_true, ite_true]
            rw [dropWhile_append_form A2 '.' ('.' :: '.' :: B) (by decide),
              dropWhile_append_form A2 '*' ('*' :: B) (by decide)]
            rw [hrecD]
            match f with
            | true =>
              simp only [if_true, ite_true]
              simp only [nibbleEllipsis]
              rw [hpm []]
            | false =>
              simp only [Bool.false_eq_true, if_false, ite_false]
              simp only [nibbleAst]
              rw [hpm []]
        | cons sc st ihs =>
          obtain ⟨ihne, ihna, ihmm⟩ := ihs
          have hne : nibbleEllipsis (c :: (A2 ++ '.' :: '.' :: '.' :: B)) (sc :: st)
              = nibbleEllipsis (c :: (A2 ++ '*' :: '*' :: B)) (sc :: st) := by
            simp only [nibbleEllipsis]
            rw [hpm (sc :: st), ihne]
          have hna : nibbleAst (c :: (A2 ++ '.' :: '.' :: '.' :: B)) (sc :: st)
              = nibbleAst (c :: (A2 ++ '*' :: '*' :: B)) (sc :: st) := by
            simp only [nibbleAst]
            rw [hpm (sc :: st), ihna]
          refine ⟨hne, hna, ?_⟩
          intro f
          simp only [pathMatchMulti]
          rw [dif_pos (by simp only [List.headD_cons]; exact hcs),
            dif_pos (by simp only [List.headD_cons]; exact hcs)]
          simp only [List.isEmpty_cons, Bool.false_eq_true, and_false, if_false, ite_false]
          simp only [List.dropWhile_cons, hcs, if_true, ite_true]
          rw [dropWhile_append_form A2 '.' ('.' :: '.' :: B) (by decide),
            dropWhile_append_form A2 '*' ('*' :: B) (by decide)]
          rw [hrecD]
          match f with
          | true =>
            simp only [if_true, ite_true]
            rw [hne]
          | false =>
            simp only [Bool.false_eq_true, if_false, ite_false]
            rw [hna]
      · -- pattern head is not a slash
        have hcsf : isSlash c = false := eq_false_of_ne_true hcs
        have hMWeq := isMW_tok_eq (c :: A2) B hInv
        simp only [List.append_assoc, List.cons_append, List.nil_append] at hMWeq
        by_cases hm : isMultiWildStr (c :: (A2 ++ '.' :: '.' :: '.' :: B)) = true
        · -- multi-wildcard branch
          have hm2 : isMultiWildStr (c :: (A2 ++ '*' :: '*' :: B)) = true := by
            rw [← hMWeq]
            exact hm
          have hdich := mwrTok (c :: A2).length (c :: A2) B (le_refl _) hInv
          simp only [List.append_assoc, List.cons_append, List.nil_append] at hdich
          have hpm : ∀ s, pathMatch (c :: (A2 ++ '.' :: '.' :: '.' :: B)) s
              = pathMatch (c :: (A2 ++ '*' :: '*' :: B)) s := by
            rcases hdich with ⟨he1, he2⟩ | ⟨A3, f3, _, _, hinv3, hstrict, _, _, hq1, hq2⟩
            · intro s
              match s with
              | [] =>
                rw [pathMatch]
                rw [dif_pos hm]
                rw [pathMatch]
                rw [dif_pos hm2]
                rw [he1, he2]
              | sc :: st =>
                simp only [pathMatch, hcsf, Bool.false_eq_true, if_false, ite_false]
                rw [dif_pos hm, dif_pos hm2]
                rw [he1, he2]
            · have hlen3 : A3.length ≤ a := by
                have := hstrict hm
                simp only [List.length_cons] at this hl
                omega
              have hmm3 := (ih A3 B hlen3 hinv3).2
              simp only [List.append_assoc, List.cons_append, List.nil_append] at hmm3
              intro s
              match s with
              | [] =>
                rw [pathMatch]
                rw [dif_pos hm]
                rw [pathMatch]
                rw [dif_pos hm2]
                rw [hq1, hq2]
                exact (hmm3 []).2.2 f3
              | sc :: st =>
                simp only [pathMatch, hcsf, Bool.false_eq_true, if_false, ite_false]
                rw [dif_pos hm, dif_pos hm2]
                rw [hq1, hq2]
                exact (hmm3 _).2.2 f3
          refine ⟨hpm, ?_⟩
          intro s
          induction s with
          | nil =>
            refine ⟨?_, ?_, ?_⟩
            · simp only [nibbleEllipsis]
              rw [hpm []]
            · simp only [nibbleAst]
              exact hpm []
            · intro f
              simp only [pathMatchMulti]
              rw [dif_neg (by simp only [List.headD_cons]; simp [hcsf]),
                dif_neg (by simp only [List.headD_cons]; simp [hcsf])]
              simp only [List.isEmpty_cons, Bool.false_eq_true, and_false, if_false, ite_false]
              match f with
              | true =>
                simp only [if_true, ite_true]
                simp only [nibbleEllipsis]
                rw [hpm []]
              | false =>
                simp only [Bool.false_eq_true, if_false, ite_false]
                simp only [nibbleAst]
                rw [hpm []]
          | cons sc st ihs =>
            obtain ⟨ihne, ihna, ihmm⟩ := ihs
            have hne : nibbleEllipsis (c :: (A2 ++ '.' :: '.' :: '.' :: B)) (sc :: st)
                = nibbleEllipsis (c :: (A2 ++ '*' :: '*' :: B)) (sc :: st) := by
              simp only [nibbleEllipsis]
              rw [hpm (sc :: st), ihne]
            have hna : nibbleAst (c :: (A2 ++ '.' :: '.' :: '.' :: B)) (sc :: st)
                = nibbleAst (c :: (A2 ++ '*' :: '*' :: B)) (sc :: st) := by
              simp only [nibbleAst]
              rw [hpm (sc :: st), ihna]
            refine ⟨hne, hna, ?_⟩
            intro f
            simp only [pathMatchMulti]
            rw [dif_neg (by simp only [List.headD_cons]; simp [hcsf]),
              dif_neg (by simp only [List.headD_cons]; simp [hcsf])]
            simp only [List.isEmpty_cons, Bool.false_eq_true, and_false, if_false, ite_false]
            match f with
            | true =>
              simp only [if_true, ite_true]
              exact hne
            | false =>
              simp only [Bool.false_eq_true, if_false, ite_false]
              exact hna
        · -- literal character branch
          have hmf : isMultiWildStr (c :: (A2 ++ '.' :: '.' :: '.' :: B)) = false :=
            eq_false_of_ne_true hm
          have hm2f : isMultiWildStr (c :: (A2 ++ '*' :: '*' :: B)) = false := by
            rw [← hMWeq]
            exact hmf
          have hrec := (ih A2 B hlt hInv2).1
          simp only [List.append_assoc, List.cons_append, List.nil_append] at hrec
          have hpm : ∀ s, pathMatch (c :: (A2 ++ '.' :: '.' :: '.' :: B)) s
              = pathMatch (c :: (A2 ++ '*' :: '*' :: B)) s := by
            intro s
            match s with
            | [] =>
              rw [pathMatch]
              rw [dif_neg (by simp [hmf])]
              rw [pathMatch]
              rw [dif_neg (by simp [hm2f])]
            | sc :: st =>
              simp only [pathMatch, hcsf, Bool.false_eq_true, if_false, ite_false]
              rw [dif_neg (by simp [hmf]), dif_neg (by simp [hm2f])]
              rw [hrec]
          refine ⟨hpm, ?_⟩
          intro s
          induction s with
          | nil =>
            refine ⟨?_, ?_, ?_⟩
            · simp only [nibbleEllipsis]
              rw [hpm []]
            · simp only [nibbleAst]
              exact hpm []
            · intro f
              simp only [pathMatchMulti]
              rw [dif_neg (by simp only [List.headD_cons]; simp [hcsf]),
                dif_neg (by simp only [List.headD_cons]; simp [hcsf])]
              simp only [List.isEmpty_cons, Bool.false_eq_true, and_false, if_false, ite_false]
              match f with
              | true =>
                simp only [if_true, ite_true]
                simp only [nibbleEllipsis]
                rw [hpm []]
              | false =>
                simp only [Bool.false_eq_true, if_false, ite_false]
                simp only [nibbleAst]
                rw [hpm []]
          | cons sc st ihs =>
            obtain ⟨ihne, ihna, ihmm⟩ := ihs
            have hne : nibbleEllipsis (c :: (A2 ++ '.' :: '.' :: '.' :: B)) (sc :: st)
                = nibbleEllipsis (c :: (A2 ++ '*' :: '*' :: B)) (sc :: st) := by
              simp only [nibbleEllipsis]
              rw [hpm (sc :: st), ihne]
            have hna : nibbleAst (c :: (A2 ++ '.' :: '.' :: '.' :: B)) (sc :: st)
                = nibbleAst (c :: (A2 ++ '*' :: '*' :: B)) (sc :: st) := by
              simp only [nibbleAst]
              rw [hpm (sc :: st), ihna]
            refine ⟨hne, hna, ?_⟩
            intro f
            simp only [pathMatchMulti]
            rw [dif_neg (by simp only [List.headD_cons]; simp [hcsf]),
              dif_neg (by simp only [List.headD_cons]; simp [hcsf])]
            simp only [List.isEmpty_cons, Bool.false_eq_true, and_false, if_false, ite_false]
            match f with
            | true =>
              simp only [if_true, ite_true]
              exact hne
            | false =>
              simp only [Bool.false_eq_true, if_false, ite_false]
              exact hna

/-- C2 (amended): the two multi-segment-wildcard spellings are
interchangeable in the full-path matcher for every prefix `A` that does
not end in `'.'`, every suffix `B`, and every path `p`.  (When `A` ends
in a dot, the dot can be absorbed into an ellipsis token in the `"..."`
spelling while staying literal in the `"**"` spelling, and the two can
disagree.) -/
theorem C2_spelling_equivalence (A B p : List Char) (h : ¬ A.getLast? = some '.') :
    pathMatch (A ++ ['.', '.', '.'] ++ B) p = pathMatch (A ++ ['*', '*'] ++ B) p :=
  (tokBundle A.length A B (le_refl _) h).1 p

/-- Witness for C2: the amended equivalence applied at the prefix `"m"`,
empty suffix, and path `"mx"`. -/
theorem C2_spelling_equivalence_witness :
    ¬ (['m'] : List Char).getLast? = some '.'
    ∧ pathMatch (['m'] ++ ['.', '.', '.'] ++ []) ['m', 'x']
        = pathMatch (['m'] ++ ['*', '*'] ++ []) ['m', 'x'] :=
  ⟨by decide, C2_spelling_equivalence ['m'] [] ['m', 'x'] (by decide)⟩
